import Mathlib

/-!
# Verification of the MyTinyWebServer reactor core

A shallow embedding, in Lean 4, of the components of the MyTinyWebServer
repository that the specification's claims concern:

* `Buffer` (`src/MyWebServer/base/Buffer.h` / `Buffer.cpp`): the byte buffer
  with read/write cursors, its `retrieve` family and the edge-triggered
  `readFd` loop;
* `TcpConnection::sendInLoop` (`src/MyWebServer/net/TcpConnection.cpp`): the
  direct-write fast path;
* `HttpRequest` / `HttpContext` (`HttpRequest.h`, `HttpContext.h`,
  `HttpContext.cpp`): the streaming HTTP request parser;
* `HttpServer::onRequest` (`HttpServer.cpp`): keep-alive computation;
* `WebRouter` (`src/MyWebServer/http/WebRouter.cpp`): the radix-like route
  tree;
* `TimerQueue` (`TimerQueue.cpp`): the double-indexed timer collection.

Byte strings are modelled as `List Char` (the code only stores 8-bit chars and
compares them for equality).  `std::unordered_map` is modelled either as an
association list (`List (key × value)`, lookup = first match, insertion =
assign-or-append; keys are unique by construction) or, for the router, as a
total function into `Option` — both faithfully render the container's
lookup/insert semantics, which is all the code observes.
-/

/-! ## C-library character helpers used by the source -/

/-- `isspace` from `<cctype>` (C locale), used by `HttpRequest::addHeader`
to trim header values. -/
def cIsSpace (c : Char) : Bool :=
  c = ' ' || c = '\t' || c = '\n' || c = '\x0b' || c = '\x0c' || c = '\r'

/-- Association-list lookup: the value stored under `k`, if any
(models `std::unordered_map::find`). -/
def lookupA (m : List (List Char × List Char)) (k : List Char) : Option (List Char) :=
  match m with
  | [] => none
  | (k', v) :: rest => if k' = k then some v else lookupA rest k

/-- Association-list assignment (models `map[k] = v`): replaces the binding of
`k` when present, otherwise appends it. -/
def insertA (m : List (List Char × List Char)) (k v : List Char) :
    List (List Char × List Char) :=
  match m with
  | [] => [(k, v)]
  | (k', v') :: rest =>
      if k' = k then (k', v) :: rest else (k', v') :: insertA rest k v

/-! ## Buffer (`src/MyWebServer/base/Buffer.h`)

The C++ `Buffer` is a `std::vector<char>` plus two indices.  We model the
vector as a `List Char` whose length is the vector's size. -/

/-- `Buffer::kCheapPrepend`. -/
def kCheapPrepend : Nat := 8

/-- `Buffer::kInitialSize`. -/
def kInitialSize : Nat := 1024

structure Buffer where
  store : List Char
  readIndex : Nat
  writeIndex : Nat
  deriving DecidableEq, Repr

namespace Buffer

/-- `Buffer::Buffer(initialSize)`: a vector of `kCheapPrepend + initialSize`
value-initialized chars, both cursors at the prepend boundary. -/
def mkBuffer (initialSize : Nat := kInitialSize) : Buffer :=
  ⟨List.replicate (kCheapPrepend + initialSize) (Char.ofNat 0), kCheapPrepend, kCheapPrepend⟩

/-- `Buffer::readableBytes()`. -/
def readableBytes (b : Buffer) : Nat := b.writeIndex - b.readIndex

/-- `Buffer::writableBytes()`. -/
def writableBytes (b : Buffer) : Nat := b.store.length - b.writeIndex

/-- `Buffer::prependableBytes()`. -/
def prependableBytes (b : Buffer) : Nat := b.readIndex

/-- The readable region `[readIndex, writeIndex)` — what `peek()` points at. -/
def readable (b : Buffer) : List Char :=
  (b.store.drop b.readIndex).take b.readableBytes

/-- `Buffer::retrieveAll()`. -/
def retrieveAll (b : Buffer) : Buffer :=
  { b with readIndex := kCheapPrepend, writeIndex := kCheapPrepend }

/-- `Buffer::retrieve(len)` (the `assert(len <= readableBytes())` is rendered
as a hypothesis on the theorems below). -/
def retrieve (b : Buffer) (len : Nat) : Buffer :=
  if len < b.readableBytes then
    { b with readIndex := b.readIndex + len }
  else
    b.retrieveAll

/-- `Buffer::makeSpace(len)`: grow (`vector::resize(writeIndex_ + len)`,
padding with value-initialized chars) when even compaction cannot make room,
otherwise move the readable bytes to the prepend boundary. -/
def makeSpace (b : Buffer) (len : Nat) : Buffer :=
  if b.writableBytes + b.prependableBytes < len + kCheapPrepend then
    { b with store :=
        b.store.take (b.writeIndex + len) ++
          List.replicate (b.writeIndex + len - b.store.length) (Char.ofNat 0) }
  else
    { b with
      store := b.store.take kCheapPrepend ++ b.readable ++
        b.store.drop (kCheapPrepend + b.readableBytes),
      readIndex := kCheapPrepend,
      writeIndex := kCheapPrepend + b.readableBytes }

/-- `Buffer::ensureWritableBytes(len)`. -/
def ensureWritableBytes (b : Buffer) (len : Nat) : Buffer :=
  if b.writableBytes < len then b.makeSpace len else b

/-- `Buffer::append(data, len)`: make room, copy the bytes at `beginWrite()`,
advance `writeIndex_`. -/
def append (b : Buffer) (data : List Char) : Buffer :=
  let b' := b.ensureWritableBytes data.length
  { b' with
    store := b'.store.take b'.writeIndex ++ data ++
      b'.store.drop (b'.writeIndex + data.length),
    writeIndex := b'.writeIndex + data.length }

end Buffer

/-! ### Claim C6 — `retrieve` cursor arithmetic -/

/-- Counterexample to C6 as stated: on a fresh buffer holding two readable
bytes, `retrieve(2)` (the boundary case `n = readableBytes()`) resets both
cursors to the prepend boundary instead of advancing `readIndex` by 2, so
`prependableBytes()` is 8, not the old `prependableBytes() + 2 = 10`, and
`writeIndex` moves from 10 to 8. -/
theorem c6_counterexample :
    let b := (Buffer.mkBuffer 4).append ['a', 'b']
    ¬ ((b.retrieve 2).prependableBytes = b.prependableBytes + 2 ∧
       (b.retrieve 2).writeIndex = b.writeIndex) := by
  decide

/-- C6, amended: for `n ≤ readableBytes()`, `retrieve(n)` advances `readIndex`
by `n` and leaves `writeIndex` unchanged only in the strict case
`n < readableBytes()`; in the boundary case `n = readableBytes()` it behaves
as `retrieveAll()`, resetting both cursors to the prepend boundary (so
`readableBytes()` becomes 0 and `prependableBytes()` becomes 8).  In both
cases `readableBytes()` drops by exactly `n`. -/
theorem c6_retrieve_amended (b : Buffer) (n : Nat) (h : n ≤ b.readableBytes) :
    (b.retrieve n).readableBytes = b.readableBytes - n ∧
    (n < b.readableBytes →
      (b.retrieve n).prependableBytes = b.prependableBytes + n ∧
      (b.retrieve n).readIndex = b.readIndex + n ∧
      (b.retrieve n).writeIndex = b.writeIndex) ∧
    (n = b.readableBytes →
      (b.retrieve n).readIndex = kCheapPrepend ∧
      (b.retrieve n).writeIndex = kCheapPrepend ∧
      (b.retrieve n).prependableBytes = kCheapPrepend) := by
  unfold Buffer.retrieve
  rcases lt_or_eq_of_le h with hlt | heq
  · rw [if_pos hlt]
    refine ⟨?_, fun _ => ⟨rfl, rfl, rfl⟩, fun he => absurd he (ne_of_lt hlt)⟩
    simp only [Buffer.readableBytes]
    omega
  · rw [heq, if_neg (lt_irrefl _)]
    refine ⟨?_, fun hlt => absurd hlt (lt_irrefl _), fun _ => ⟨rfl, rfl, rfl⟩⟩
    simp only [Buffer.retrieveAll, Buffer.readableBytes]
    omega

/-- Witness for `c6_retrieve_amended` at a concrete input: the buffer holding
"ab" with `n = 1`. -/
theorem c6_retrieve_amended_witness :
    1 ≤ ((Buffer.mkBuffer 4).append ['a', 'b']).readableBytes ∧
    (((Buffer.mkBuffer 4).append ['a', 'b']).retrieve 1).readableBytes =
      ((Buffer.mkBuffer 4).append ['a', 'b']).readableBytes - 1 :=
  ⟨by decide, (c6_retrieve_amended ((Buffer.mkBuffer 4).append ['a', 'b']) 1 (by decide)).1⟩

/-! ## `Buffer::readFd` (`src/MyWebServer/base/Buffer.cpp`)

The kernel is modelled by a schedule: each `::readv` call consumes one step.
A `chunk bytes` step is a successful read returning `bytes.length` (the empty
chunk is `readv` returning 0, i.e. EOF); a `fail e` step is a return of −1
with `errno = e`.  The scatter into the buffer plus the 64 KiB `extrabuf`
spill both land, in order, in the buffer (directly or through `append`), so a
successful read of `bytes` is exactly `append bytes`. -/

inductive Errno where
  | eagain | ewouldblock | eintr | epipe | econnreset | other
  deriving DecidableEq, Repr

inductive ReadStep where
  | chunk (bytes : List Char)
  | fail (e : Errno)
  deriving DecidableEq, Repr

namespace Buffer

/-- The `while(true)` loop of `Buffer::readFd`, with `totalLen` the
accumulated byte count.  Returns `none` when the schedule is exhausted while
the loop still runs (a real kernel always eventually answers EAGAIN).  The
saved errno is `none` where the C++ stores 0. -/
def readFdLoop : List ReadStep → Buffer → Nat → Option (Int × Option Errno × Buffer)
  | [], _, _ => none
  | ReadStep.chunk bytes :: rest, buf, totalLen =>
      if bytes.isEmpty then
        -- n == 0: peer closed; saved_errno = 0
        if totalLen = 0 then some (0, none, buf)
        else some ((totalLen : Int), none, buf)
      else
        readFdLoop rest (buf.append bytes) (totalLen + bytes.length)
  | ReadStep.fail e :: _, buf, totalLen =>
      if e = Errno.eagain ∨ e = Errno.ewouldblock then
        -- the edge-triggered termination condition
        some ((totalLen : Int), some e, buf)
      else
        -- any other error (including EINTR, which this loop does not retry)
        some (-1, some e, buf)

/-- `Buffer::readFd(fd, saveErrno)`. -/
def readFd (buf : Buffer) (sched : List ReadStep) : Option (Int × Option Errno × Buffer) :=
  readFdLoop sched buf 0

/-- `append` keeps `readIndex ≤ writeIndex` and grows the readable region by
exactly the appended length. -/
theorem readableBytes_append (b : Buffer) (d : List Char)
    (h : b.readIndex ≤ b.writeIndex) :
    (b.append d).readableBytes = b.readableBytes + d.length ∧
    (b.append d).readIndex ≤ (b.append d).writeIndex := by
  unfold append ensureWritableBytes makeSpace
  dsimp only
  split
  · split
    · simp only [readableBytes]
      omega
    · simp only [readableBytes]
      omega
  · simp only [readableBytes]
    omega

/-- Invariant of `readFdLoop`: the buffer only grows; when the loop ends at
EAGAIN/EWOULDBLOCK or EOF the returned count is `totalLen` plus the bytes
added to the buffer; a zero return with errno 0 happens exactly when EOF is
the first event; any error other than EAGAIN/EWOULDBLOCK yields −1. -/
theorem readFdLoop_spec (sched : List ReadStep) :
    ∀ (buf : Buffer) (total : Nat) (r : Int) (e : Option Errno) (b' : Buffer),
    buf.readIndex ≤ buf.writeIndex →
    readFdLoop sched buf total = some (r, e, b') →
    buf.readableBytes ≤ b'.readableBytes ∧
    ((e = none ∨ e = some Errno.eagain ∨ e = some Errno.ewouldblock) →
      0 ≤ r ∧ r.toNat = total + (b'.readableBytes - buf.readableBytes)) ∧
    (e = none → (r = 0 ↔ total = 0 ∧ ∃ rest, sched = ReadStep.chunk [] :: rest)) ∧
    (∀ err, e = some err → err ≠ Errno.eagain → err ≠ Errno.ewouldblock → r = -1) := by
  induction sched with
  | nil =>
      intro buf total r e b' _ h
      simp [readFdLoop] at h
  | cons step rest ih =>
      intro buf total r e b' hinv h
      match step with
      | ReadStep.chunk [] =>
          simp only [readFdLoop, List.isEmpty_nil, if_true] at h
          by_cases ht : total = 0
          · rw [if_pos ht] at h
            simp only [Option.some.injEq, Prod.mk.injEq] at h
            obtain ⟨hr, he, hb⟩ := h
            subst hr; subst hb; subst he
            refine ⟨le_refl _, fun _ => by simp [ht], fun _ => ?_, fun err he' _ _ => by simp at he'⟩
            simp [ht]
          · rw [if_neg ht] at h
            simp only [Option.some.injEq, Prod.mk.injEq] at h
            obtain ⟨hr, he, hb⟩ := h
            subst hr; subst hb; subst he
            refine ⟨le_refl _, fun _ => by simp, fun _ => ?_, fun err he' _ _ => by simp at he'⟩
            constructor
            · intro h0
              have : total = 0 := by exact_mod_cast h0
              exact absurd this ht
            · rintro ⟨h0, -⟩; exact absurd h0 ht
      | ReadStep.chunk (c :: cs) =>
          simp only [readFdLoop, List.isEmpty_cons, if_false] at h
          have happ := readableBytes_append buf (c :: cs) hinv
          obtain ⟨hgrow, hok, hz, herr⟩ :=
            ih (buf.append (c :: cs)) (total + (c :: cs).length) r e b' happ.2 h
          rw [happ.1] at hgrow
          refine ⟨by omega, fun hc => ?_, fun hc => ?_, herr⟩
          · obtain ⟨hr0, hr⟩ := hok hc
            rw [happ.1] at hr
            exact ⟨hr0, by omega⟩
          · rw [hz hc]
            constructor
            · rintro ⟨h0, -⟩
              simp only [List.length_cons] at h0
              omega
            · rintro ⟨-, rest', hrest⟩
              simp at hrest
      | ReadStep.fail e0 =>
          simp only [readFdLoop] at h
          by_cases hager : e0 = Errno.eagain ∨ e0 = Errno.ewouldblock
          · rw [if_pos hager] at h
            simp only [Option.some.injEq, Prod.mk.injEq] at h
            obtain ⟨hr, he, hb⟩ := h
            subst hr; subst hb; subst he
            refine ⟨le_refl _, fun _ => by simp, fun hc => by simp at hc,
              fun err he' hne1 hne2 => ?_⟩
            injection he' with he''
            rcases hager with h' | h' <;> rw [h'] at he''
            · exact absurd he''.symm hne1
            · exact absurd he''.symm hne2
          · rw [if_neg hager] at h
            simp only [Option.some.injEq, Prod.mk.injEq] at h
            obtain ⟨hr, he, hb⟩ := h
            subst hr; subst hb; subst he
            refine ⟨le_refl _, fun hc => ?_, fun hc => by simp at hc, fun _ _ _ _ => rfl⟩
            rcases hc with hc | hc | hc
            · simp at hc
            · simp only [Option.some.injEq] at hc
              exact absurd (Or.inl hc) hager
            · simp only [Option.some.injEq] at hc
              exact absurd (Or.inr hc) hager

end Buffer

/-! ### Claim C5 — `readFd` loop semantics -/

/-- Counterexample to C5 as stated: with the kernel first delivering three
bytes and then reporting EOF, `readFd` encounters EOF but returns 3 (the
bytes read so far) rather than 0.  `saved_errno` is still set to 0
(modelled `none`). -/
theorem c5_counterexample :
    ((Buffer.mkBuffer 4).readFd [ReadStep.chunk ['a', 'b', 'c'], ReadStep.chunk []]).map
        (fun out => (out.1, out.2.1)) = some ((3 : Int), (none : Option Errno)) ∧
    (3 : Int) ≠ 0 := by
  decide

/-- C5, amended: `readFd` loops until the kernel reports
EAGAIN/EWOULDBLOCK, EOF, or a fatal error.  At EAGAIN/EWOULDBLOCK it returns
the number of bytes read in this call (the buffer's readable region grows by
exactly that much) and saves that errno.  At EOF it sets `saved_errno` to 0
and returns the number of bytes read so far — which is 0 exactly when EOF was
the first kernel answer.  On any other error (EINTR included, which this loop
does not retry) it returns −1 and propagates the errno. -/
theorem c5_readFd_amended (buf : Buffer) (sched : List ReadStep)
    (r : Int) (e : Option Errno) (b' : Buffer)
    (hinv : buf.readIndex ≤ buf.writeIndex)
    (h : buf.readFd sched = some (r, e, b')) :
    (e = none →
      0 ≤ r ∧ r.toNat = b'.readableBytes - buf.readableBytes ∧
      (r = 0 ↔ ∃ rest, sched = ReadStep.chunk [] :: rest)) ∧
    ((e = some Errno.eagain ∨ e = some Errno.ewouldblock) →
      0 ≤ r ∧ r.toNat = b'.readableBytes - buf.readableBytes) ∧
    (∀ err, e = some err → err ≠ Errno.eagain → err ≠ Errno.ewouldblock → r = -1) := by
  obtain ⟨hgrow, hok, hz, herr⟩ :=
    Buffer.readFdLoop_spec sched buf 0 r e b' hinv h
  refine ⟨fun he => ?_, fun he => ?_, herr⟩
  · obtain ⟨hr0, hr⟩ := hok (Or.inl he)
    refine ⟨hr0, by omega, ?_⟩
    rw [hz he]
    simp
  · obtain ⟨hr0, hr⟩ := hok (Or.inr he)
    exact ⟨hr0, by omega⟩

/-- Witness for `c5_readFd_amended`: one byte read, then EAGAIN. -/
theorem c5_readFd_amended_witness :
    0 ≤ (1 : Int) ∧ (1 : Int).toNat =
      ((Buffer.mkBuffer 4).append ['a']).readableBytes - (Buffer.mkBuffer 4).readableBytes :=
  (c5_readFd_amended (Buffer.mkBuffer 4) [ReadStep.chunk ['a'], ReadStep.fail Errno.eagain]
      1 (some Errno.eagain) ((Buffer.mkBuffer 4).append ['a']) (by decide) (by decide)).2.1
    (Or.inl rfl)

/-! ## `TcpConnection::sendInLoop` (`src/MyWebServer/net/TcpConnection.cpp`)

The direct-write fast path (output buffer empty, channel not watching
`EPOLLOUT` — the guard of step 1 of `sendInLoop`; the claim's hypotheses).
The kernel is a schedule of `::write` outcomes.  Note the source passes
`data, len` to `::write` on every iteration (it advances a local `ptr` by `n`
but never passes it), so a successful write of `n` bytes puts the FIRST `n`
bytes of the payload on the wire each time; the model renders this as
`data.take n`.  `remaining` is a `size_t`; its subtraction wraps mod 2^64. -/

/-- `size_t` subtraction, mod 2^64. -/
def wrapSub64 (a b : Nat) : Nat := (a + 2 ^ 64 - b % 2 ^ 64) % 2 ^ 64

inductive WriteStep where
  | ok (n : Nat)
  | fail (e : Errno)
  deriving DecidableEq, Repr

structure SendResult where
  wire : List Char
  appended : List Char
  faultError : Bool
  writeComplete : Bool
  deriving DecidableEq, Repr

/-- The `while (remaining > 0)` loop of `sendInLoop`.  Returns
`(remaining, nWritten, wire, faultError)` at loop exit, `none` when the
schedule is exhausted while the loop still runs.  On an error other than
EINTR and EAGAIN/EWOULDBLOCK the source sets `nWritten = 0`, possibly sets
`faultError`, and KEEPS LOOPING (there is no `break` on that path). -/
def sendLoop (data : List Char) :
    List WriteStep → Nat → Nat → List Char → Bool →
    Option (Nat × Nat × List Char × Bool)
  | _, 0, nWritten, wire, fault => some (0, nWritten, wire, fault)
  | [], _ + 1, _, _, _ => none
  | WriteStep.ok n :: rest, r + 1, nWritten, wire, fault =>
      sendLoop data rest (wrapSub64 (r + 1) n) (nWritten + n) (wire ++ data.take n) fault
  | WriteStep.fail e :: rest, r + 1, nWritten, wire, fault =>
      if e = Errno.eintr then
        sendLoop data rest (r + 1) nWritten wire fault
      else if e = Errno.eagain ∨ e = Errno.ewouldblock then
        some (r + 1, nWritten, wire, fault)
      else
        sendLoop data rest (r + 1) 0 wire
          (fault || (decide (e ≠ Errno.ewouldblock) &&
            (decide (e = Errno.epipe) || decide (e = Errno.econnreset))))

/-- `TcpConnection::sendInLoop(data, len)` on the fast path: run the direct
write loop, then (step 2) append the unwritten tail
`[data + nWritten, data + nWritten + remaining)` to the output buffer when no
fault occurred and bytes remain; the write-complete callback fires when the
whole payload went out without fault. -/
def sendInLoop (data : List Char) (sched : List WriteStep) : Option SendResult :=
  match sendLoop data sched data.length 0 [] false with
  | none => none
  | some (remaining, nWritten, wire, fault) =>
      some { wire := wire,
             appended := if !fault && decide (0 < remaining) then
                 (data.drop nWritten).take remaining
               else [],
             faultError := fault,
             writeComplete := !fault && decide (remaining = 0) }

/-! ### Claim C1 — bytes on the wire plus staged tail = payload -/

/-- C1 fails on the code: for the two-byte payload "ab" with the kernel
accepting one byte per `::write` call, the loop writes the payload's FIRST
byte twice (the source passes `data, len` instead of `ptr, remaining`), so
the descriptor receives "aa" and nothing is staged: the first byte is
duplicated and the second is dropped, contradicting the claim that the bytes
written followed by the bytes appended equal the payload. -/
theorem c1_sendInLoop_failing_input :
    (sendInLoop ['a', 'b'] [WriteStep.ok 1, WriteStep.ok 1]).map
        (fun res => res.wire ++ res.appended) = some ['a', 'a'] ∧
    (['a', 'a'] : List Char) ≠ ['a', 'b'] := by
  constructor
  · rfl
  · decide

/-! ## HTTP request model (`HttpRequest.h`, i.e. `src/unnamed/part_004`)

`Method`, `Version`, `HttpRequest` and its operations, plus the helpers they
call (`url_decode` / `hex_char_to_val` from `utils.h`).  Header and query
maps are `std::unordered_map<std::string, std::string>`, modelled as
association lists with assign-or-append insertion. -/

inductive Method where
  | kInvalid | kGet | kPost | kHead | kPut | kDelete
  deriving DecidableEq, Repr

inductive Version where
  | kUnknown | kHttp10 | kHttp11
  deriving DecidableEq, Repr

/-- `hex_char_to_val` (`utils.h`). -/
def hexCharToVal (c : Char) : Option Nat :=
  if '0' ≤ c ∧ c ≤ '9' then some (c.toNat - '0'.toNat)
  else if 'a' ≤ c ∧ c ≤ 'f' then some (10 + (c.toNat - 'a'.toNat))
  else if 'A' ≤ c ∧ c ≤ 'F' then some (10 + (c.toNat - 'A'.toNat))
  else none

/-- `url_decode` (`utils.h`): a `%hh` escape (with two valid hex digits
available, mirroring the `i + 2 < length()` bound check) decodes to one byte;
an invalid escape copies the `%` verbatim; `+` becomes a space only when
`plus_to_space` is set. -/
def urlDecode : List Char → Bool → List Char
  | [], _ => []
  | '%' :: h :: lo :: rest, plusToSpace =>
      match hexCharToVal h, hexCharToVal lo with
      | some hi, some lo' => Char.ofNat (hi * 16 + lo') :: urlDecode rest plusToSpace
      | _, _ => '%' :: urlDecode (h :: lo :: rest) plusToSpace
  | c :: rest, plusToSpace =>
      if plusToSpace ∧ c = '+' then ' ' :: urlDecode rest plusToSpace
      else c :: urlDecode rest plusToSpace

structure HttpRequest where
  method : Method
  version : Version
  url : List Char
  queries : List (List Char × List Char)
  receiveTime : Int
  headers : List (List Char × List Char)
  body : List Char
  deriving DecidableEq, Repr

namespace HttpRequest

/-- The default constructor: `method_(kInvalid), version_(kUnknown)`, empty
strings and maps, zero receive time. -/
def init : HttpRequest :=
  ⟨Method.kInvalid, Version.kUnknown, [], [], 0, [], []⟩

/-- The string comparison chain inside `setMethod`. -/
def methodOfString (m : List Char) : Method :=
  if m = "GET".toList then Method.kGet
  else if m = "POST".toList then Method.kPost
  else if m = "HEAD".toList then Method.kHead
  else if m = "PUT".toList then Method.kPut
  else if m = "DELETE".toList then Method.kDelete
  else Method.kInvalid

/-- `HttpRequest::setUrl`. -/
def setUrl (req : HttpRequest) (l : List Char) : HttpRequest := { req with url := l }

/-- One entry of `parse_queries`: split on the first `=` (none ⇒ empty
value), url-decode both halves, assign into the member map. -/
def parseQueryEntry (m : List (List Char × List Char)) (entry : List Char) :
    List (List Char × List Char) :=
  if entry = [] then m
  else
    let kv := match entry.findIdx? (fun c => c = '=') with
      | none => (entry, ([] : List Char))
      | some eq => (entry.take eq, entry.drop (eq + 1))
    insertA m (urlDecode kv.1 false) (urlDecode kv.2 false)

/-- `HttpRequest::parse_queries`: split the query string on `&`, skip empty
entries, insert each decoded pair into the member `queries` map (note: into
the EXISTING map, it is not cleared first). -/
def parse_queries (req : HttpRequest) (qs : List Char) : HttpRequest :=
  { req with queries := (qs.splitOn '&').foldl parseQueryEntry req.queries }

/-- `HttpRequest::setQueries`. -/
def setQueries (req : HttpRequest) (qs : List Char) : HttpRequest :=
  req.parse_queries qs

/-- `HttpRequest::addHeader(start, colon, end)` for the line
`[start, end)` with the colon at index `ci`: the key is the raw text before
the colon (NOT trimmed, NOT lowercased); the value skips whitespace after
the colon and drops trailing whitespace. -/
def addHeader (req : HttpRequest) (line : List Char) (ci : Nat) : HttpRequest :=
  let field := line.take ci
  let afterColon := line.drop (ci + 1)
  let value0 := afterColon.dropWhile cIsSpace
  let value := (value0.reverse.dropWhile cIsSpace).reverse
  { req with headers := insertA req.headers field value }

/-- `HttpRequest::getHeader`: exact-key lookup, empty string when absent. -/
def getHeader (req : HttpRequest) (field : List Char) : List Char :=
  (lookupA req.headers field).getD []

/-- `HttpRequest::swap(that)`, returned as the pair (new this, new that).
The member-wise swap exchanges `method_`, `version_`, `url_`,
`receiveTime_`, `headers_` and `body_` — the `queries` map is NOT in the
list, so each side keeps its own `queries`. -/
def swap (a b : HttpRequest) : HttpRequest × HttpRequest :=
  ({ a with method := b.method, version := b.version, url := b.url,
            receiveTime := b.receiveTime, headers := b.headers, body := b.body },
   { b with method := a.method, version := a.version, url := a.url,
            receiveTime := a.receiveTime, headers := a.headers, body := a.body })

end HttpRequest

/-! ## HTTP context / parser (`HttpContext.h`, `HttpContext.cpp` =
`src/unnamed/part_006`)

`parseRequest` drives a byte-wise state machine over the buffer's readable
region (which is all it inspects: `peek`, `findStr`, `retrieveUntil`,
`retrieve`, `readableBytes`), so the buffer is passed as that region. -/

inductive HttpRequestParseState where
  | kExpectRequestLine | kExpectHeaders | kExpectBody | kGotAll
  deriving DecidableEq, Repr

/-- Modelled from the spec: `Buffer::findStr(kCLRF)` ("find CRLF", §4.9) is
declared on the Buffer but its body is not among the provided sources; it
returns a pointer to the first occurrence of `"\r\n"` in the readable region
(null when absent), rendered here as the offset from `peek()`. -/
def findCRLF : List Char → Option Nat
  | [] => none
  | [_] => none
  | c1 :: c2 :: rest =>
      if c1 = '\r' ∧ c2 = '\n' then some 0
      else (findCRLF (c2 :: rest)).map (· + 1)

theorem findCRLF_le (l : List Char) (p : Nat) (h : findCRLF l = some p) :
    p + 2 ≤ l.length := by
  induction l generalizing p with
  | nil => simp [findCRLF] at h
  | cons c1 tl ih =>
      cases tl with
      | nil => simp [findCRLF] at h
      | cons c2 rest =>
          rw [findCRLF] at h
          split at h
          · simp only [Option.some.injEq] at h
            subst h
            simp
          · simp only [Option.map_eq_some'] at h
            obtain ⟨q, hq, hpq⟩ := h
            have := ih q hq
            subst hpq
            simp only [List.length_cons] at *
            omega

/-- `std::stoll` on a header value: skip leading whitespace, optional sign,
parse a digit run (none ⇒ `std::invalid_argument`; magnitude beyond the
signed 64-bit range ⇒ `std::out_of_range`; both are caught by the caller),
ignoring any suffix after the digits. -/
def stollDigits (l : List Char) : Option Nat :=
  let ds := l.takeWhile (fun c => '0' ≤ c ∧ c ≤ '9')
  if ds = [] then none
  else some (ds.foldl (fun acc c => acc * 10 + (c.toNat - '0'.toNat)) 0)

def stollM (s : List Char) : Option Int :=
  let s1 := s.dropWhile cIsSpace
  let signed : Option Int :=
    match s1 with
    | '-' :: rest => (stollDigits rest).map (fun n => -(n : Int))
    | '+' :: rest => (stollDigits rest).map (fun n => (n : Int))
    | _ => (stollDigits s1).map (fun n => (n : Int))
  match signed with
  | none => none
  | some v => if v < -(2 ^ 63 : Int) ∨ (2 ^ 63 : Int) - 1 < v then none else some v

/-- The key `"Content-Length"` the parser looks up. -/
def contentLengthKey : List Char := "Content-Length".toList

/-- `HttpContext::processRequestLine(begin, end)`: returns the success flag
and the (possibly partially) mutated request — `setMethod` has already fired
when the later checks fail, exactly as in the source. -/
def processRequestLine (req : HttpRequest) (line : List Char) : Bool × HttpRequest :=
  match line.findIdx? (fun c => c = ' ') with
  | none => (false, req)
  | some i =>
      let m := HttpRequest.methodOfString (line.take i)
      let req1 := { req with method := m }
      if m = Method.kInvalid then (false, req1)
      else
        let rest := line.drop (i + 1)
        match rest.findIdx? (fun c => c = ' ') with
        | none => (false, req1)
        | some j =>
            let urlPart := rest.take j
            let req2 :=
              match urlPart.findIdx? (fun c => c = '?') with
              | some q => (req1.setUrl (urlPart.take q)).setQueries (urlPart.drop (q + 1))
              | none => req1.setUrl urlPart
            let ver := rest.drop (j + 1)
            if ver = "HTTP/1.1".toList then (true, { req2 with version := Version.kHttp11 })
            else if ver = "HTTP/1.0".toList then (true, { req2 with version := Version.kHttp10 })
            else (false, req2)

/-- One iteration of the `while (hasMore)` loop of
`HttpContext::parseRequest`.  `Sum.inl` is the loop ending (`hasMore =
false`, carrying `(ok, state, request, remaining buffer)`); `Sum.inr` is the
loop continuing with a new `(state, request, buffer)`.  A call in state
`kGotAll` matches no branch of the source's loop (which would spin forever
there); the server never does this — it `reset()`s first — and the model
ends the loop immediately. -/
def parseStep (st : HttpRequestParseState) (req : HttpRequest) (buf : List Char)
    (t : Int) :
    (Bool × HttpRequestParseState × HttpRequest × List Char) ⊕
      (HttpRequestParseState × HttpRequest × List Char) :=
  match st with
  | HttpRequestParseState.kExpectRequestLine =>
      match findCRLF buf with
      | some p =>
          let pr := processRequestLine req (buf.take p)
          if pr.1 then
            Sum.inr (HttpRequestParseState.kExpectHeaders,
              { pr.2 with receiveTime := t }, buf.drop (p + 2))
          else
            Sum.inl (false, HttpRequestParseState.kExpectRequestLine, pr.2, buf)
      | none => Sum.inl (true, HttpRequestParseState.kExpectRequestLine, req, buf)
  | HttpRequestParseState.kExpectHeaders =>
      match findCRLF buf with
      | some p =>
          let line := buf.take p
          match line.findIdx? (fun c => c = ':') with
          | some ci =>
              Sum.inr (HttpRequestParseState.kExpectHeaders,
                req.addHeader line ci, buf.drop (p + 2))
          | none =>
              if req.getHeader contentLengthKey ≠ [] then
                Sum.inr (HttpRequestParseState.kExpectBody, req, buf.drop (p + 2))
              else
                Sum.inl (true, HttpRequestParseState.kGotAll, req, buf.drop (p + 2))
      | none => Sum.inl (true, HttpRequestParseState.kExpectHeaders, req, buf)
  | HttpRequestParseState.kExpectBody =>
      match stollM (req.getHeader contentLengthKey) with
      | none => Sum.inl (false, HttpRequestParseState.kExpectBody, req, buf)
      | some n =>
          -- `size_t contentLength = std::stoll(...)`: long long → size_t
          let contentLength := (n % (2 ^ 64 : Int)).toNat
          if contentLength ≤ buf.length then
            Sum.inl (true, HttpRequestParseState.kGotAll,
              { req with body := buf.take contentLength }, buf.drop contentLength)
          else
            Sum.inl (true, HttpRequestParseState.kExpectBody, req, buf)
  | HttpRequestParseState.kGotAll =>
      Sum.inl (true, HttpRequestParseState.kGotAll, req, buf)

/-- Every continuing iteration consumes a line plus its CRLF. -/
theorem parseStep_inr_shrinks (st : HttpRequestParseState) (req : HttpRequest)
    (buf : List Char) (t : Int) (st' : HttpRequestParseState) (req' : HttpRequest)
    (buf' : List Char) (h : parseStep st req buf t = Sum.inr (st', req', buf')) :
    buf'.length + 2 ≤ buf.length := by
  cases st <;> unfold parseStep at h
  case kExpectRequestLine =>
    cases hc : findCRLF buf with
    | some p =>
        rw [hc] at h
        have hle := findCRLF_le buf p hc
        dsimp only at h
        split at h
        · simp only [Sum.inr.injEq, Prod.mk.injEq] at h
          obtain ⟨-, -, hb⟩ := h
          subst hb
          simp only [List.length_drop]
          omega
        · cases h
    | none => rw [hc] at h; cases h
  case kExpectHeaders =>
    cases hc : findCRLF buf with
    | some p =>
        rw [hc] at h
        have hle := findCRLF_le buf p hc
        dsimp only at h
        split at h
        · simp only [Sum.inr.injEq, Prod.mk.injEq] at h
          obtain ⟨-, -, hb⟩ := h
          subst hb
          simp only [List.length_drop]
          omega
        · split at h
          · simp only [Sum.inr.injEq, Prod.mk.injEq] at h
            obtain ⟨-, -, hb⟩ := h
            subst hb
            simp only [List.length_drop]
            omega
          · cases h
    | none => rw [hc] at h; cases h
  case kExpectBody =>
    cases hc : stollM (req.getHeader contentLengthKey) with
    | some n =>
        rw [hc] at h
        dsimp only at h
        split at h <;> cases h
    | none => rw [hc] at h; cases h
  case kGotAll => cases h

/-- The loop, with an iteration budget.  Each continuing iteration consumes
at least two buffer bytes (`parseStep_inr_shrinks`), so a budget exceeding
the buffer length is never exhausted and the fuelled loop IS the source's
unbounded `while` (`parseLoopF_fuel_irrel`). -/
def parseLoopF : Nat → HttpRequestParseState → HttpRequest → List Char → Int →
    Bool × HttpRequestParseState × HttpRequest × List Char
  | 0, st, req, buf, _ => (true, st, req, buf)
  | fuel + 1, st, req, buf, t =>
      match parseStep st req buf t with
      | Sum.inl out => out
      | Sum.inr (st', req', buf') => parseLoopF fuel st' req' buf' t

/-- Any two sufficient budgets agree, so `parseLoop` below is
budget-independent: it computes the limit of the source's `while` loop. -/
theorem parseLoopF_fuel_irrel (f1 : Nat) :
    ∀ (f2 : Nat) (st : HttpRequestParseState) (req : HttpRequest)
      (buf : List Char) (t : Int),
    buf.length < f1 → buf.length < f2 →
    parseLoopF f1 st req buf t = parseLoopF f2 st req buf t := by
  induction f1 with
  | zero => intro f2 st req buf t h1 _; omega
  | succ f1 ih =>
      intro f2 st req buf t h1 h2
      cases f2 with
      | zero => omega
      | succ f2 =>
          simp only [parseLoopF]
          cases hstep : parseStep st req buf t with
          | inl out => rfl
          | inr cont =>
              obtain ⟨st', req', buf'⟩ := cont
              have := parseStep_inr_shrinks st req buf t st' req' buf' hstep
              exact ih f2 st' req' buf' t (by omega) (by omega)

/-- The `while (hasMore)` loop of `HttpContext::parseRequest`, returning
`(ok, state, request, remaining buffer)`. -/
def parseLoop (st : HttpRequestParseState) (req : HttpRequest) (buf : List Char)
    (t : Int) : Bool × HttpRequestParseState × HttpRequest × List Char :=
  parseLoopF (buf.length + 1) st req buf t

structure HttpContext where
  state : HttpRequestParseState
  request : HttpRequest
  deriving DecidableEq, Repr

namespace HttpContext

/-- `HttpContext()`. -/
def init : HttpContext := ⟨HttpRequestParseState.kExpectRequestLine, HttpRequest.init⟩

/-- `HttpContext::parseRequest(buf, receiveTime)`: run the loop from the
stored state, returning the flag, the updated context, and what remains in
the buffer. -/
def parseRequest (ctx : HttpContext) (buf : List Char) (t : Int) :
    Bool × HttpContext × List Char :=
  let out := parseLoop ctx.state ctx.request buf t
  (out.1, ⟨out.2.1, out.2.2.1⟩, out.2.2.2)

/-- `HttpContext::gotAll()`. -/
def gotAll (ctx : HttpContext) : Bool := ctx.state = HttpRequestParseState.kGotAll

/-- `HttpContext::reset()`: back to `kExpectRequestLine` and
`request_.swap(dummy)` with a default-constructed `dummy`. -/
def reset (ctx : HttpContext) : HttpContext :=
  ⟨HttpRequestParseState.kExpectRequestLine, (ctx.request.swap HttpRequest.init).1⟩

end HttpContext

/-! ### Association-list lemmas -/

theorem lookupA_insertA_self (m : List (List Char × List Char)) (k v : List Char) :
    lookupA (insertA m k v) k = some v := by
  induction m with
  | nil => simp [insertA, lookupA]
  | cons kv rest ih =>
      obtain ⟨k', v'⟩ := kv
      by_cases hk : k' = k
      · simp [insertA, lookupA, hk]
      · simp [insertA, lookupA, hk, ih]

theorem lookupA_insertA_ne (m : List (List Char × List Char)) (k v f : List Char)
    (h : f ≠ k) : lookupA (insertA m k v) f = lookupA m f := by
  induction m with
  | nil => simp [insertA, lookupA, fun he => h he.symm ∘ Eq.symm]
           by_cases hfk : k = f
           · exact absurd hfk.symm h
           · simp [hfk]
  | cons kv rest ih =>
      obtain ⟨k', v'⟩ := kv
      by_cases hk : k' = k
      · subst hk
        have : ¬ k' = f := fun he => h (he.symm)
        simp [insertA, lookupA, this]
      · simp only [insertA, if_neg hk, lookupA]
        by_cases hf : k' = f
        · simp [hf]
        · simp [hf, ih]

theorem findIdxColon_eq_none (l : List Char) (h : ∀ c ∈ l, c ≠ ':') :
    l.findIdx? (fun c => c = ':') = none := by
  induction l with
  | nil => simp
  | cons c rest ih =>
      have hc : ¬ (c = ':') := h c (List.mem_cons_self c rest)
      simp only [List.findIdx?_cons]
      rw [if_neg (by simpa using hc), List.findIdx?_succ,
        ih (fun x hx => h x (List.mem_cons_of_mem c hx))]
      rfl

theorem findIdxColon_append (key value : List Char) (hk : ':' ∉ key) :
    (key ++ ':' :: value).findIdx? (fun c => c = ':') = some key.length := by
  induction key with
  | nil => simp
  | cons c rest ih =>
      have hc : ¬ (c = ':') := fun he => hk (he ▸ List.mem_cons_self c rest)
      simp only [List.cons_append, List.findIdx?_cons]
      rw [if_neg (by simpa using hc), List.findIdx?_succ,
        ih (fun hmem => hk (List.mem_cons_of_mem c hmem))]
      simp

/-! ### Claim C2 — `reset` after a complete parse -/

/-- C2 fails on the code: parse the complete request
`"GET /p?a=1 HTTP/1.1\r\n\r\n"` on a fresh context, then `reset()`.  The
member-wise `HttpRequest::swap` omits the `queries` map, so the reset context
still holds the query binding `a ↦ 1` and is NOT equal to a freshly
constructed context (whose request is default-constructed), although the
parse state does return to `kExpectRequestLine`. -/
theorem c2_reset_failing_input :
    (HttpContext.parseRequest HttpContext.init "GET /p?a=1 HTTP/1.1\r\n\r\n".toList 0).1 = true ∧
    ((HttpContext.parseRequest HttpContext.init
        "GET /p?a=1 HTTP/1.1\r\n\r\n".toList 0).2.1).gotAll = true ∧
    ((HttpContext.parseRequest HttpContext.init
        "GET /p?a=1 HTTP/1.1\r\n\r\n".toList 0).2.1).reset.state =
      HttpRequestParseState.kExpectRequestLine ∧
    ((HttpContext.parseRequest HttpContext.init
        "GET /p?a=1 HTTP/1.1\r\n\r\n".toList 0).2.1).reset.request.queries =
      [("a".toList, "1".toList)] ∧
    ((HttpContext.parseRequest HttpContext.init
        "GET /p?a=1 HTTP/1.1\r\n\r\n".toList 0).2.1).reset ≠ HttpContext.init := by
  refine ⟨by decide, by decide, by decide, by decide, by decide⟩

/-! ### Claim C3 — header-key normalization -/

/-- Counterexample to C3 as stated: after successfully parsing a request
carrying `Content-Length: 1`, `getHeader "content-length"` returns the empty
string while `getHeader "Content-Length"` returns `"1"` — the two
capitalizations disagree, because `addHeader` stores the key verbatim
(neither trimmed nor lowercased) and `getHeader` does an exact lookup. -/
theorem c3_counterexample :
    (HttpContext.parseRequest HttpContext.init
        "POST /s HTTP/1.1\r\nContent-Length: 1\r\n\r\nx".toList 0).1 = true ∧
    ((HttpContext.parseRequest HttpContext.init
        "POST /s HTTP/1.1\r\nContent-Length: 1\r\n\r\nx".toList 0).2.1).gotAll = true ∧
    ¬ (((HttpContext.parseRequest HttpContext.init
          "POST /s HTTP/1.1\r\nContent-Length: 1\r\n\r\nx".toList 0).2.1).request.getHeader
          "content-length".toList =
        ((HttpContext.parseRequest HttpContext.init
          "POST /s HTTP/1.1\r\nContent-Length: 1\r\n\r\nx".toList 0).2.1).request.getHeader
          "Content-Length".toList) := by
  refine ⟨by decide, by decide, by decide⟩

/-- C3, amended: for a header line `key ++ ":" ++ rawValue` whose key
contains no colon, the parser's split point is the first colon (index
`key.length`), the stored key is exactly `key` — untrimmed and with its
capitalization preserved — and the stored value is `rawValue` trimmed of
leading and trailing whitespace; `getHeader` with exactly `key` returns that
value, while lookups under any other spelling are unaffected by this line
(so lookup is case-sensitive, not case-insensitive). -/
theorem c3_addHeader_amended (req : HttpRequest) (key value : List Char)
    (hk : ':' ∉ key) :
    (key ++ ':' :: value).findIdx? (fun c => c = ':') = some key.length ∧
    (req.addHeader (key ++ ':' :: value) key.length).headers =
      insertA req.headers key
        (((value.dropWhile cIsSpace).reverse.dropWhile cIsSpace).reverse) ∧
    (req.addHeader (key ++ ':' :: value) key.length).getHeader key =
      (((value.dropWhile cIsSpace).reverse.dropWhile cIsSpace).reverse) ∧
    (∀ f, f ≠ key →
      (req.addHeader (key ++ ':' :: value) key.length).getHeader f = req.getHeader f) := by
  have htake : (key ++ ':' :: value).take key.length = key := List.take_left key _
  have hdrop : (key ++ ':' :: value).drop (key.length + 1) = value := by
    have h1 : (key ++ ':' :: value).drop key.length = ':' :: value := List.drop_left key _
    have h2 : (key ++ ':' :: value).drop (key.length + 1) =
        ((key ++ ':' :: value).drop key.length).drop 1 := by
      rw [List.drop_drop, Nat.add_comm]
    rw [h2, h1]
    rfl
  refine ⟨findIdxColon_append key value hk, ?_, ?_, ?_⟩
  · simp only [HttpRequest.addHeader, htake, hdrop]
  · simp only [HttpRequest.addHeader, HttpRequest.getHeader, htake, hdrop,
      lookupA_insertA_self, Option.getD_some]
  · intro f hf
    simp only [HttpRequest.addHeader, HttpRequest.getHeader, htake, hdrop,
      lookupA_insertA_ne _ _ _ _ hf]

/-- Witness for `c3_addHeader_amended`: the header line `"Host: x "` on a
fresh request. -/
theorem c3_addHeader_amended_witness :
    ':' ∉ "Host".toList ∧
    (HttpRequest.init.addHeader ("Host".toList ++ ':' :: " x ".toList)
        "Host".toList.length).getHeader "Host".toList =
      (((" x ".toList.dropWhile cIsSpace).reverse.dropWhile cIsSpace).reverse) :=
  ⟨by decide,
   (c3_addHeader_amended HttpRequest.init "Host".toList " x ".toList (by decide)).2.2.1⟩

/-! ### Claim C9 — a header line without a colon ends the header section -/

/-- C9: in state `kExpectHeaders`, a complete line containing no `':'` — not
only the empty line — terminates the header section: the line's contents are
discarded (the request is unchanged, the line and its CRLF are consumed) and
parsing proceeds in `kExpectBody` when a non-empty `Content-Length` header
was recorded, else finishes as `kGotAll` with success — no parse error is
reported for such a line. -/
theorem c9_line_without_colon_ends_headers (req : HttpRequest) (buf : List Char)
    (t : Int) (p : Nat) (hp : findCRLF buf = some p)
    (hnc : ∀ c ∈ buf.take p, c ≠ ':') :
    parseLoop HttpRequestParseState.kExpectHeaders req buf t =
      if req.getHeader contentLengthKey ≠ [] then
        parseLoop HttpRequestParseState.kExpectBody req (buf.drop (p + 2)) t
      else
        (true, HttpRequestParseState.kGotAll, req, buf.drop (p + 2)) := by
  have hle := findCRLF_le buf p hp
  have hstep : parseStep HttpRequestParseState.kExpectHeaders req buf t =
      (if req.getHeader contentLengthKey ≠ [] then
        Sum.inr (HttpRequestParseState.kExpectBody, req, buf.drop (p + 2))
      else
        Sum.inl (true, HttpRequestParseState.kGotAll, req, buf.drop (p + 2))) := by
    simp only [parseStep]
    rw [hp]
    dsimp only
    rw [findIdxColon_eq_none _ hnc]
  by_cases hcl : req.getHeader contentLengthKey ≠ []
  · rw [if_pos hcl] at hstep
    rw [if_pos hcl]
    show parseLoopF (buf.length + 1) _ _ _ _ = _
    simp only [parseLoopF]
    rw [hstep]
    exact parseLoopF_fuel_irrel buf.length _ _ _ _ _
      (by simp only [List.length_drop]; omega)
      (by simp only [List.length_drop]; omega)
  · rw [if_neg hcl] at hstep
    rw [if_neg hcl]
    show parseLoopF (buf.length + 1) _ _ _ _ = _
    simp only [parseLoopF]
    rw [hstep]

/-- Witness for `c9_line_without_colon_ends_headers`: the junk line `"xy"`
followed by CRLF, on a request with no recorded `Content-Length`. -/
theorem c9_line_without_colon_ends_headers_witness :
    findCRLF "xy\r\n".toList = some 2 ∧
    parseLoop HttpRequestParseState.kExpectHeaders HttpRequest.init "xy\r\n".toList 0 =
      (true, HttpRequestParseState.kGotAll, HttpRequest.init, []) := by
  refine ⟨by decide, ?_⟩
  rw [c9_line_without_colon_ends_headers HttpRequest.init "xy\r\n".toList 0 2
    (by decide) (by decide)]
  decide

/-! ## `HttpServer::onRequest` (`HttpServer.cpp` = `src/unnamed/part_005`)

`onRequest` computes the keep-alive decision from the parsed request, builds
the response with that flag, lets the user callback fill it in, sends it, and
calls `conn->shutdown()` iff the response's `closeConnection()` is set.  The
user callback is an opaque callable (out of the spec's scope); it is a
parameter of the model. -/

structure HttpResponse where
  statusCode : Nat
  statusMessage : List Char
  headers : List (List Char × List Char)
  body : List Char
  closeConnection : Bool
  deriving DecidableEq, Repr

/-- `HttpResponse::HttpResponse(close)`: status `kUnknown` (0), close flag as
given. -/
def HttpResponse.mkClose (close : Bool) : HttpResponse := ⟨0, [], [], [], close⟩

namespace HttpServer

/-- The header name `"Connection"` that `onRequest` looks up. -/
def connectionKey : List Char := "Connection".toList

/-- The `close` computation at the top of `HttpServer::onRequest`:
`close = (connection == "close") || (version == kHttp10 && connection != "Keep-Alive")`. -/
def onRequestClose (req : HttpRequest) : Bool :=
  decide (req.getHeader connectionKey = "close".toList) ||
  (decide (req.version = Version.kHttp10) &&
    decide (req.getHeader connectionKey ≠ "Keep-Alive".toList))

/-- `HttpServer::onRequest`: the final response handed to `conn->send` and
whether `conn->shutdown()` is called afterwards (`response.closeConnection()`). -/
def onRequest (cb : HttpRequest → HttpResponse → HttpResponse) (req : HttpRequest) :
    HttpResponse × Bool :=
  let close := onRequestClose req
  let response := cb req (HttpResponse.mkClose close)
  (response, response.closeConnection)

end HttpServer

/-! ### Claim C4 — keep-alive computation -/

/-- C4: `onRequest` computes `closeConnection` so that an HTTP/1.1 request is
kept alive (flag false) iff its `Connection` header is not `"close"`, and an
HTTP/1.0 request is closed iff its `Connection` header is not `"Keep-Alive"`;
in particular, for an HTTP/1.1 request without `Connection: close`, and a
user callback that leaves the close flag alone (the callback is an opaque
collaborator), `onRequest` does not shut the connection down. -/
theorem c4_onRequest_keepalive (req : HttpRequest) :
    (req.version = Version.kHttp11 →
      (HttpServer.onRequestClose req = false ↔
        req.getHeader HttpServer.connectionKey ≠ "close".toList)) ∧
    (req.version = Version.kHttp10 →
      (HttpServer.onRequestClose req = true ↔
        req.getHeader HttpServer.connectionKey ≠ "Keep-Alive".toList)) ∧
    (∀ cb : HttpRequest → HttpResponse → HttpResponse,
      (∀ q r, (cb q r).closeConnection = r.closeConnection) →
      req.version = Version.kHttp11 →
      req.getHeader HttpServer.connectionKey ≠ "close".toList →
      (HttpServer.onRequest cb req).2 = false) := by
  have main11 : req.version = Version.kHttp11 →
      (HttpServer.onRequestClose req = false ↔
        req.getHeader HttpServer.connectionKey ≠ "close".toList) := by
    intro h11
    have hv : decide (req.version = Version.kHttp10) = false := by
      simp [h11]
    unfold HttpServer.onRequestClose
    rw [hv]
    simp
  refine ⟨main11, ?_, ?_⟩
  · intro h10
    have hv : decide (req.version = Version.kHttp10) = true := by simp [h10]
    unfold HttpServer.onRequestClose
    rw [hv]
    simp only [Bool.true_and, Bool.or_eq_true, decide_eq_true_eq]
    constructor
    · rintro (hcl | hka)
      · rw [hcl]
        decide
      · exact hka
    · exact Or.inr
  · intro cb hcb h11 hconn
    unfold HttpServer.onRequest
    dsimp only
    rw [hcb]
    exact (main11 h11).mpr hconn

/-- Witness for `c4_onRequest_keepalive`: a fresh HTTP/1.1 request with no
headers at all and the identity callback — the server keeps the connection
open. -/
theorem c4_onRequest_keepalive_witness :
    (HttpServer.onRequest (fun _ r => r)
      { HttpRequest.init with version := Version.kHttp11 }).2 = false :=
  (c4_onRequest_keepalive
      { HttpRequest.init with version := Version.kHttp11 }).2.2
    (fun _ r => r) (fun _ _ => rfl) rfl (by decide)

/-! ## Router (`src/MyWebServer/http/WebRouter.cpp`)

The route tree.  The `Node` struct (declared in the router's header, used
throughout `WebRouter.cpp`; spec §3 "Router Node") holds the segment string,
a method → handler map, static children keyed by segment, at most one
parametric child, at most one wildcard child, and the capture name.  Handlers
are opaque callables; they are identified by a `Nat`.  The two
`std::unordered_map`s are modelled as functions into `Option` (their lookup /
assign semantics is all the code uses). -/

structure Node where
  segment : List Char
  handlers : Method → Option Nat
  static_children : List Char → Option Node
  param_child : Option Node
  wildcard_child : Option Node
  param_name : List Char

/-- `std::make_unique<Node>()`: value-initialized node. -/
def Node.empty : Node :=
  ⟨[], fun _ => none, fun _ => none, none, none, []⟩

inductive RouteStatus where
  | NOT_FOUND_URL | NOT_FOUND_METHOD | FOUND
  deriving DecidableEq, Repr

/-- `RouteResult` as returned by `find_route`: status, handler
(`nullptr` ⇒ `none`), captured parameters. -/
structure RouteResult where
  status : RouteStatus
  handler : Option Nat
  params : List (List Char × List Char)
  deriving DecidableEq, Repr

namespace WebRouter

/-- `WebRouter::split_path`: `std::getline` on `'/'`, keeping only non-empty
segments (the explicit `""`/`"/"` short-circuit of the source included). -/
def split_path (path : List Char) : List (List Char) :=
  if path = [] ∨ path = ['/'] then []
  else (path.splitOn '/').filter (fun s => s ≠ [])

/-- The `for` loop of `WebRouter::add_route` followed by the terminal handler
installation, as a recursion over the remaining segments.  `Except.error`
renders `throw std::logic_error`.  An empty segment is skipped
(`if(segment.empty()) continue;` — unreachable from `split_path` output). -/
def addSegs (node : Node) : List (List Char) → Method → Nat → Except String Node
  | [], m, h =>
      match node.handlers m with
      | some _ => Except.error "Route conflict: handler for this path and method already exists"
      | none => Except.ok { node with handlers := fun m' => if m' = m then some h else node.handlers m' }
  | [] :: rest, m, h => addSegs node rest m h
  | (c :: cs) :: rest, m, h =>
      if c = ':' then
        match node.param_child with
        | none =>
            let child := { Node.empty with segment := c :: cs, param_name := cs }
            match addSegs child rest m h with
            | Except.error e => Except.error e
            | Except.ok child' => Except.ok { node with param_child := some child' }
        | some pc =>
            if pc.segment ≠ c :: cs then
              Except.error "Route conflict: cannot have multiple parameter names at the same level"
            else
              match addSegs pc rest m h with
              | Except.error e => Except.error e
              | Except.ok child' => Except.ok { node with param_child := some child' }
      else if c = '*' then
        if rest ≠ [] then
          Except.error "Wildcard must be at the end of the route path"
        else
          match node.wildcard_child with
          | none =>
              let child := { Node.empty with segment := c :: cs, param_name := cs }
              match addSegs child rest m h with
              | Except.error e => Except.error e
              | Except.ok child' => Except.ok { node with wildcard_child := some child' }
          | some wc =>
              match addSegs wc rest m h with
              | Except.error e => Except.error e
              | Except.ok child' => Except.ok { node with wildcard_child := some child' }
      else
        let child := match node.static_children (c :: cs) with
          | some sc => sc
          | none => { Node.empty with segment := c :: cs }
        match addSegs child rest m h with
        | Except.error e => Except.error e
        | Except.ok child' =>
            Except.ok { node with static_children :=
              fun k => if k = c :: cs then some child' else node.static_children k }

/-- `WebRouter::add_route(path, method, handler)` over an explicit root. -/
def add_route (root : Node) (path : List Char) (m : Method) (h : Nat) :
    Except String Node :=
  addSegs root (split_path path) m h

/-- A registration: (path, method, handler id). -/
def addAll (root : Node) : List (List Char × Method × Nat) → Except String Node
  | [] => Except.ok root
  | (p, m, h) :: rs =>
      match add_route root p m h with
      | Except.error e => Except.error e
      | Except.ok root' => addAll root' rs

/-- Joining the remaining segments with `'/'` (the wildcard capture's
stringstream loop). -/
def joinSlash : List (List Char) → List Char
  | [] => []
  | [s] => s
  | s :: rest => s ++ '/' :: joinSlash rest

/-- `current_node->handlers.empty()`. -/
def handlersEmpty (n : Node) : Bool :=
  (n.handlers Method.kInvalid).isNone && (n.handlers Method.kGet).isNone &&
  (n.handlers Method.kPost).isNone && (n.handlers Method.kHead).isNone &&
  (n.handlers Method.kPut).isNone && (n.handlers Method.kDelete).isNone

/-- Steps 4–6 of `find_route` (after the walk): no handlers ⇒
`NOT_FOUND_URL`; method absent ⇒ `NOT_FOUND_METHOD`; else `FOUND`. -/
def classifyNode (n : Node) (m : Method) (params : List (List Char × List Char)) :
    RouteResult :=
  if handlersEmpty n then ⟨RouteStatus.NOT_FOUND_URL, none, []⟩
  else
    match n.handlers m with
    | none => ⟨RouteStatus.NOT_FOUND_METHOD, none, []⟩
    | some h => ⟨RouteStatus.FOUND, some h, params⟩

/-- The walk loop of `find_route`: static child first, then parametric child
(capturing the segment), then wildcard child (capturing the rest joined by
`'/'` and ending the walk), else `NOT_FOUND_URL`. -/
def findSegs (node : Node) (segs : List (List Char)) (m : Method)
    (params : List (List Char × List Char)) : RouteResult :=
  match segs with
  | [] => classifyNode node m params
  | seg :: rest =>
      match node.static_children seg with
      | some sc => findSegs sc rest m params
      | none =>
          match node.param_child with
          | some pc => findSegs pc rest m (insertA params pc.param_name seg)
          | none =>
              match node.wildcard_child with
              | some wc =>
                  classifyNode wc m (insertA params wc.param_name (joinSlash (seg :: rest)))
              | none => ⟨RouteStatus.NOT_FOUND_URL, none, []⟩

/-- `WebRouter::find_route(path, method)` over an explicit root. -/
def find_route (root : Node) (path : List Char) (m : Method) : RouteResult :=
  findSegs root (split_path path) m []


/-! ### Slot view of the route tree

`add_route` touches, per segment, exactly one "slot" of a node: a static
child keyed by the segment, the parametric child, or the wildcard child.
The lemmas below recast one step of `addSegs` in terms of reading
(`getChild`), creating (`freshChild`) and writing (`setChild`) that slot;
this is only a reformulation of `addSegs`, used to organise the
order-independence proof. -/


inductive Slot where
  | statik (key : List Char)
  | param
  | wild
  deriving DecidableEq, Repr

/-- Which slot a (non-empty) segment addresses, by its first character. -/
def slotOf (c : Char) (cs : List Char) : Slot :=
  if c = ':' then Slot.param else if c = '*' then Slot.wild else Slot.statik (c :: cs)

def getChild (n : Node) : Slot → Option Node
  | Slot.statik k => n.static_children k
  | Slot.param => n.param_child
  | Slot.wild => n.wildcard_child

def setChild (n : Node) (σ : Slot) (v : Node) : Node :=
  match σ with
  | Slot.statik k =>
      { n with static_children := fun kk => if kk = k then some v else n.static_children kk }
  | Slot.param => { n with param_child := some v }
  | Slot.wild => { n with wildcard_child := some v }

/-- The node `add_route` creates when the slot is empty. -/
def freshChild (σ : Slot) (s : List Char) : Node :=
  match σ with
  | Slot.statik _ => { Node.empty with segment := s }
  | Slot.param => { Node.empty with segment := s, param_name := s.drop 1 }
  | Slot.wild => { Node.empty with segment := s, param_name := s.drop 1 }

/-- The node `add_route` descends into for one segment. -/
def startChild (n : Node) (σ : Slot) (s : List Char) : Node :=
  match getChild n σ with
  | some x => x
  | none => freshChild σ s

/-- Decomposition of a successful `addSegs` step on a non-empty segment:
the recursion went through the segment's slot, the result writes that slot,
and the source's conflict checks (no second parameter name at a level;
wildcard only in final position) passed. -/
theorem addSegs_cons_ok (n : Node) (c : Char) (cs : List Char)
    (rest : List (List Char)) (m : Method) (h : Nat) (n' : Node)
    (hok : addSegs n ((c :: cs) :: rest) m h = Except.ok n') :
    ∃ v, addSegs (startChild n (slotOf c cs) (c :: cs)) rest m h = Except.ok v ∧
      n' = setChild n (slotOf c cs) v ∧
      (∀ pc, slotOf c cs = Slot.param → n.param_child = some pc → pc.segment = c :: cs) ∧
      (slotOf c cs = Slot.wild → rest = []) := by
  simp only [addSegs] at hok
  by_cases hc : c = ':'
  · rw [if_pos hc] at hok
    have hσ : slotOf c cs = Slot.param := by simp [slotOf, hc]
    rw [hσ]
    cases hpc : n.param_child with
    | none =>
        rw [hpc] at hok
        dsimp only at hok
        split at hok
        · cases hok
        · rename_i child' hrec
          injection hok with hok'
          refine ⟨child', ?_, ?_, ?_, ?_⟩
          · rw [startChild, getChild, hpc]
            exact hrec
          · rw [← hok', setChild]
          · intro pc _ hpc'
            simp at hpc'
          · intro hw
            exact Slot.noConfusion hw
    | some pc =>
        rw [hpc] at hok
        dsimp only at hok
        split at hok
        · cases hok
        · rename_i hseg
          rw [not_not] at hseg
          split at hok
          · cases hok
          · rename_i child' hrec
            injection hok with hok'
            refine ⟨child', ?_, ?_, ?_, ?_⟩
            · rw [startChild, getChild, hpc]
              exact hrec
            · rw [← hok', setChild]
            · intro pc' _ hpc'
              injection hpc' with hpc''
              rw [← hpc'']
              exact hseg
            · intro hw
              exact Slot.noConfusion hw
  · rw [if_neg hc] at hok
    by_cases hcw : c = '*'
    · rw [if_pos hcw] at hok
      have hσ : slotOf c cs = Slot.wild := by simp [slotOf, hc, hcw]
      rw [hσ]
      split at hok
      · cases hok
      · rename_i hrest
        rw [not_not] at hrest
        cases hwc : n.wildcard_child with
        | none =>
            rw [hwc] at hok
            dsimp only at hok
            split at hok
            · cases hok
            · rename_i child' hrec
              injection hok with hok'
              refine ⟨child', ?_, ?_, ?_, fun _ => hrest⟩
              · rw [startChild, getChild, hwc]
                exact hrec
              · rw [← hok', setChild]
              · intro pc hp
                exact Slot.noConfusion hp
        | some wc =>
            rw [hwc] at hok
            dsimp only at hok
            split at hok
            · cases hok
            · rename_i child' hrec
              injection hok with hok'
              refine ⟨child', ?_, ?_, ?_, fun _ => hrest⟩
              · rw [startChild, getChild, hwc]
                exact hrec
              · rw [← hok', setChild]
              · intro pc hp
                exact Slot.noConfusion hp
    · rw [if_neg hcw] at hok
      have hσ : slotOf c cs = Slot.statik (c :: cs) := by simp [slotOf, hc, hcw]
      rw [hσ]
      cases hsc : n.static_children (c :: cs) with
      | none =>
          rw [hsc] at hok
          dsimp only at hok
          split at hok
          · cases hok
          · rename_i child' hrec
            injection hok with hok'
            refine ⟨child', ?_, ?_, ?_, ?_⟩
            · rw [startChild, getChild, hsc]
              exact hrec
            · rw [← hok', setChild]
            · intro pc hp
              exact Slot.noConfusion hp
            · intro hw
              exact Slot.noConfusion hw
      | some sc =>
          rw [hsc] at hok
          dsimp only at hok
          split at hok
          · cases hok
          · rename_i child' hrec
            injection hok with hok'
            refine ⟨child', ?_, ?_, ?_, ?_⟩
            · rw [startChild, getChild, hsc]
              exact hrec
            · rw [← hok', setChild]
            · intro pc hp
              exact Slot.noConfusion hp
            · intro hw
              exact Slot.noConfusion hw

end WebRouter

namespace WebRouter

/-- Converse of `addSegs_cons_ok`: rebuild a successful `addSegs` step on a
non-empty segment from a successful recursion through its slot, given that
the conflict checks pass. -/
theorem addSegs_cons_mk (n : Node) (c : Char) (cs : List Char)
    (rest : List (List Char)) (m : Method) (h : Nat) (v : Node)
    (hrec : addSegs (startChild n (slotOf c cs) (c :: cs)) rest m h = Except.ok v)
    (hparam : ∀ pc, slotOf c cs = Slot.param → n.param_child = some pc → pc.segment = c :: cs)
    (hwild : slotOf c cs = Slot.wild → rest = []) :
    addSegs n ((c :: cs) :: rest) m h = Except.ok (setChild n (slotOf c cs) v) := by
  simp only [addSegs]
  by_cases hc : c = ':'
  · have hσ : slotOf c cs = Slot.param := by simp [slotOf, hc]
    rw [if_pos hc, hσ]
    rw [hσ] at hrec hparam
    cases hpc : n.param_child with
    | none =>
        rw [startChild, getChild, hpc] at hrec
        dsimp only at hrec
        have hrec' : addSegs { Node.empty with segment := c :: cs, param_name := cs }
            rest m h = Except.ok v := hrec
        dsimp only
        rw [hrec']
        rfl
    | some pc =>
        have hseg : pc.segment = c :: cs := hparam pc rfl hpc
        rw [startChild, getChild, hpc] at hrec
        dsimp only at hrec
        dsimp only
        rw [if_neg (by simp [hseg])]
        rw [hrec]
        rfl
  · by_cases hcw : c = '*'
    · have hσ : slotOf c cs = Slot.wild := by simp [slotOf, hc, hcw]
      rw [if_neg hc, if_pos hcw, hσ]
      rw [hσ] at hrec hwild
      have hrest : rest = [] := hwild rfl
      subst hrest
      rw [if_neg (by simp)]
      cases hwc : n.wildcard_child with
      | none =>
          rw [startChild, getChild, hwc] at hrec
          dsimp only at hrec
          have hrec' : addSegs { Node.empty with segment := c :: cs, param_name := cs }
              [] m h = Except.ok v := hrec
          dsimp only
          rw [hrec']
          rfl
      | some wc =>
          rw [startChild, getChild, hwc] at hrec
          dsimp only at hrec
          dsimp only
          rw [hrec]
          rfl
    · have hσ : slotOf c cs = Slot.statik (c :: cs) := by simp [slotOf, hc, hcw]
      rw [if_neg hc, if_neg hcw, hσ]
      rw [hσ] at hrec
      cases hsc : n.static_children (c :: cs) with
      | none =>
          rw [startChild, getChild, hsc] at hrec
          dsimp only at hrec
          have hrec' : addSegs { Node.empty with segment := c :: cs } rest m h =
              Except.ok v := hrec
          dsimp only
          rw [hrec']
          rfl
      | some sc =>
          rw [startChild, getChild, hsc] at hrec
          dsimp only at hrec
          dsimp only
          rw [hrec]
          rfl

end WebRouter

namespace WebRouter

theorem setChild_handlers (n : Node) (σ : Slot) (v : Node) :
    (setChild n σ v).handlers = n.handlers := by cases σ <;> rfl

theorem setChild_segment (n : Node) (σ : Slot) (v : Node) :
    (setChild n σ v).segment = n.segment := by cases σ <;> rfl

theorem setChild_param_name (n : Node) (σ : Slot) (v : Node) :
    (setChild n σ v).param_name = n.param_name := by cases σ <;> rfl

theorem getChild_setChild_same (n : Node) (σ : Slot) (v : Node) :
    getChild (setChild n σ v) σ = some v := by
  cases σ <;> simp [getChild, setChild]

theorem getChild_setChild_ne (n : Node) (σ σ' : Slot) (v : Node) (h : σ' ≠ σ) :
    getChild (setChild n σ v) σ' = getChild n σ' := by
  cases σ <;> cases σ' <;> simp_all [getChild, setChild]

theorem setChild_overwrite (n : Node) (σ : Slot) (x y : Node) :
    setChild (setChild n σ x) σ y = setChild n σ y := by
  cases σ with
  | statik k =>
      simp only [setChild]
      congr 1
      funext kk
      by_cases hk : kk = k <;> simp [hk]
  | param => rfl
  | wild => rfl

theorem setChild_comm (n : Node) (σ σ' : Slot) (x y : Node) (h : σ ≠ σ') :
    setChild (setChild n σ x) σ' y = setChild (setChild n σ' y) σ x := by
  cases σ <;> cases σ' <;> first
  | rfl
  | exact absurd rfl h
  | (rename_i k k'
     have hk : k ≠ k' := fun he => h (by rw [he])
     simp only [setChild]
     congr 1
     funext kk
     by_cases h1 : kk = k' <;> by_cases h2 : kk = k <;> simp_all)

theorem getChild_handlers_update (n : Node) (σ : Slot) (u : Method → Option Nat) :
    getChild { n with handlers := u } σ = getChild n σ := by cases σ <;> rfl

theorem setChild_handlers_update (n : Node) (σ : Slot) (v : Node)
    (u : Method → Option Nat) :
    setChild { n with handlers := u } σ v = { (setChild n σ v) with handlers := u } := by
  cases σ <;> rfl

theorem slotOf_statik_inv (c : Char) (cs k : List Char)
    (h : slotOf c cs = Slot.statik k) : k = c :: cs := by
  unfold slotOf at h
  split at h
  · cases h
  · split at h
    · cases h
    · injection h with h'
      exact h'.symm

/-- `addSegs` never changes the segment or capture name of the node it runs
on (only handlers and children). -/
theorem addSegs_preserves (l : List (List Char)) :
    ∀ (n : Node) (m : Method) (h : Nat) (n' : Node),
    addSegs n l m h = Except.ok n' →
    n'.segment = n.segment ∧ n'.param_name = n.param_name := by
  induction l with
  | nil =>
      intro n m h n' hok
      simp only [addSegs] at hok
      split at hok
      · cases hok
      · injection hok with hok'
        rw [← hok']
        exact ⟨rfl, rfl⟩
  | cons s rest ih =>
      intro n m h n' hok
      cases s with
      | nil =>
          simp only [addSegs] at hok
          exact ih n m h n' hok
      | cons c cs =>
          obtain ⟨v, -, hset, -, -⟩ := addSegs_cons_ok n c cs rest m h n' hok
          rw [hset, setChild_segment, setChild_param_name]
          exact ⟨rfl, rfl⟩

end WebRouter

namespace WebRouter

/-- Depth-bounded tree correspondence: equal handler maps at every level and
matching child shape, with parametric children also agreeing on their
segment (add_route's conflict check reads it).  Segments and capture names
of wildcard children are NOT constrained: reordering two wildcard
registrations with different names at the same level yields trees that
differ exactly there (and only the captured parameter's NAME differs in
lookups, never status or handler). -/
def NodeEquiv : Nat → Node → Node → Prop
  | 0, _, _ => True
  | k + 1, a, b =>
      (∀ m, a.handlers m = b.handlers m) ∧
      (∀ s, match a.static_children s, b.static_children s with
            | none, none => True
            | some x, some y => NodeEquiv k x y
            | _, _ => False) ∧
      (match a.param_child, b.param_child with
       | none, none => True
       | some x, some y => x.segment = y.segment ∧ NodeEquiv k x y
       | _, _ => False) ∧
      (match a.wildcard_child, b.wildcard_child with
       | none, none => True
       | some x, some y => NodeEquiv k x y
       | _, _ => False)

/-- Correspondence at every depth. -/
def EquivN (a b : Node) : Prop := ∀ k, NodeEquiv k a b

theorem nodeEquiv_refl (k : Nat) : ∀ n : Node, NodeEquiv k n n := by
  induction k with
  | zero => intro n; trivial
  | succ k ih =>
      intro n
      refine ⟨fun m => rfl, fun s => ?_, ?_, ?_⟩
      · cases h : n.static_children s with
        | none => simp
        | some x => simp [ih x]
      · cases h : n.param_child with
        | none => simp
        | some x => simp [ih x]
      · cases h : n.wildcard_child with
        | none => simp
        | some x => simp [ih x]

theorem equivN_refl (n : Node) : EquivN n n := fun k => nodeEquiv_refl k n

theorem nodeEquiv_trans (k : Nat) :
    ∀ a b c : Node, NodeEquiv k a b → NodeEquiv k b c → NodeEquiv k a c := by
  induction k with
  | zero => intro a b c _ _; trivial
  | succ k ih =>
      intro a b c hab hbc
      obtain ⟨h1, h2, h3, h4⟩ := hab
      obtain ⟨g1, g2, g3, g4⟩ := hbc
      refine ⟨fun m => (h1 m).trans (g1 m), fun s => ?_, ?_, ?_⟩
      · have h2s := h2 s
        have g2s := g2 s
        cases ha : a.static_children s <;> cases hb : b.static_children s <;>
          cases hc : c.static_children s <;>
          rw [ha, hb] at h2s <;> rw [hb, hc] at g2s <;>
          first
          | trivial
          | exact h2s.elim
          | exact g2s.elim
          | exact ih _ _ _ h2s g2s
      · have h3s := h3
        have g3s := g3
        cases ha : a.param_child <;> cases hb : b.param_child <;>
          cases hc : c.param_child <;>
          rw [ha, hb] at h3s <;> rw [hb, hc] at g3s <;>
          first
          | trivial
          | exact h3s.elim
          | exact g3s.elim
          | exact ⟨h3s.1.trans g3s.1, ih _ _ _ h3s.2 g3s.2⟩
      · have h4s := h4
        have g4s := g4
        cases ha : a.wildcard_child <;> cases hb : b.wildcard_child <;>
          cases hc : c.wildcard_child <;>
          rw [ha, hb] at h4s <;> rw [hb, hc] at g4s <;>
          first
          | trivial
          | exact h4s.elim
          | exact g4s.elim
          | exact ih _ _ _ h4s g4s

theorem equivN_trans (a b c : Node) (hab : EquivN a b) (hbc : EquivN b c) :
    EquivN a c := fun k => nodeEquiv_trans k a b c (hab k) (hbc k)

/-- Nodes with pointwise-equal handlers and literally equal children are
equivalent at every depth (segments may differ). -/
theorem equivN_of_parts (a b : Node)
    (hh : ∀ m, a.handlers m = b.handlers m)
    (hs : a.static_children = b.static_children)
    (hp : a.param_child = b.param_child)
    (hw : a.wildcard_child = b.wildcard_child) : EquivN a b := by
  intro k
  cases k with
  | zero => trivial
  | succ k =>
      refine ⟨hh, fun s => ?_, ?_, ?_⟩
      · rw [hs]
        cases h : b.static_children s with
        | none => simp
        | some x => simp [nodeEquiv_refl k x]
      · rw [hp]
        cases h : b.param_child with
        | none => simp
        | some x => simp [nodeEquiv_refl k x]
      · rw [hw]
        cases h : b.wildcard_child with
        | none => simp
        | some x => simp [nodeEquiv_refl k x]

end WebRouter

namespace WebRouter

/-- Equivalent nodes have the same slot shape, with equivalent occupants
(and equal segments for the parametric slot). -/
theorem equivN_getChild (a b : Node) (hab : EquivN a b) (σ : Slot) :
    (getChild a σ = none ∧ getChild b σ = none) ∨
    (∃ x y, getChild a σ = some x ∧ getChild b σ = some y ∧ EquivN x y ∧
      (σ = Slot.param → x.segment = y.segment)) := by
  cases σ with
  | statik k0 =>
      cases hx : a.static_children k0 with
      | none =>
          cases hy : b.static_children k0 with
          | none => exact Or.inl ⟨hx, hy⟩
          | some y =>
              have h := (hab 1).2.1 k0
              rw [hx, hy] at h
              exact h.elim
      | some x =>
          cases hy : b.static_children k0 with
          | none =>
              have h := (hab 1).2.1 k0
              rw [hx, hy] at h
              exact h.elim
          | some y =>
              refine Or.inr ⟨x, y, hx, hy, fun j => ?_, fun he => Slot.noConfusion he⟩
              have h := (hab (j + 1)).2.1 k0
              rw [hx, hy] at h
              exact h
  | param =>
      cases hx : a.param_child with
      | none =>
          cases hy : b.param_child with
          | none => exact Or.inl ⟨hx, hy⟩
          | some y =>
              have h := (hab 1).2.2.1
              rw [hx, hy] at h
              exact h.elim
      | some x =>
          cases hy : b.param_child with
          | none =>
              have h := (hab 1).2.2.1
              rw [hx, hy] at h
              exact h.elim
          | some y =>
              refine Or.inr ⟨x, y, hx, hy, fun j => ?_, fun _ => ?_⟩
              · have h := (hab (j + 1)).2.2.1
                rw [hx, hy] at h
                exact h.2
              · have h := (hab 1).2.2.1
                rw [hx, hy] at h
                exact h.1
  | wild =>
      cases hx : a.wildcard_child with
      | none =>
          cases hy : b.wildcard_child with
          | none => exact Or.inl ⟨hx, hy⟩
          | some y =>
              have h := (hab 1).2.2.2
              rw [hx, hy] at h
              exact h.elim
      | some x =>
          cases hy : b.wildcard_child with
          | none =>
              have h := (hab 1).2.2.2
              rw [hx, hy] at h
              exact h.elim
          | some y =>
              refine Or.inr ⟨x, y, hx, hy, fun j => ?_, fun he => Slot.noConfusion he⟩
              have h := (hab (j + 1)).2.2.2
              rw [hx, hy] at h
              exact h

/-- Writing equivalent occupants into the same slot of equivalent nodes
keeps them equivalent. -/
theorem equivN_setChild (a b : Node) (hab : EquivN a b) (σ : Slot) (x y : Node)
    (hxy : EquivN x y) (hseg : σ = Slot.param → x.segment = y.segment) :
    EquivN (setChild a σ x) (setChild b σ y) := by
  intro k
  cases k with
  | zero => trivial
  | succ k =>
      cases σ with
      | statik k0 =>
          refine ⟨fun m => (hab (k + 1)).1 m, fun s => ?_, (hab (k + 1)).2.2.1,
            (hab (k + 1)).2.2.2⟩
          simp only [setChild]
          by_cases hs : s = k0
          · simp only [if_pos hs]
            exact hxy k
          · simp only [if_neg hs]
            exact (hab (k + 1)).2.1 s
      | param =>
          exact ⟨fun m => (hab (k + 1)).1 m, fun s => (hab (k + 1)).2.1 s,
            ⟨hseg rfl, hxy k⟩, (hab (k + 1)).2.2.2⟩
      | wild =>
          exact ⟨fun m => (hab (k + 1)).1 m, fun s => (hab (k + 1)).2.1 s,
            (hab (k + 1)).2.2.1, hxy k⟩

/-- Updating the handler maps of equivalent nodes pointwise-equally keeps
them equivalent. -/
theorem equivN_handlers_update (a b : Node) (hab : EquivN a b)
    (u u' : Method → Option Nat) (hu : ∀ m, u m = u' m) :
    EquivN { a with handlers := u } { b with handlers := u' } := by
  intro k
  cases k with
  | zero => trivial
  | succ k =>
      exact ⟨hu, fun s => (hab (k + 1)).2.1 s, (hab (k + 1)).2.2.1, (hab (k + 1)).2.2.2⟩

end WebRouter

namespace WebRouter

/-- `addSegs` acts the same, up to `EquivN`, on equivalent trees: the
recursion only reads handler maps, slot shape, and parametric segments — all
of which `EquivN` preserves. -/
theorem addSegs_respects_equiv (l : List (List Char)) :
    ∀ (a b : Node) (m : Method) (h : Nat) (t : Node),
    EquivN a b → addSegs a l m h = Except.ok t →
    ∃ t', addSegs b l m h = Except.ok t' ∧ EquivN t t' := by
  induction l with
  | nil =>
      intro a b m h t hab hok
      simp only [addSegs] at hok ⊢
      cases hm : a.handlers m with
      | some x => rw [hm] at hok; cases hok
      | none =>
          rw [hm] at hok
          dsimp only at hok
          injection hok with hok'
          have hbm : b.handlers m = none := by rw [← (hab 1).1 m]; exact hm
          rw [hbm]
          dsimp only
          refine ⟨_, rfl, ?_⟩
          rw [← hok']
          exact equivN_handlers_update a b hab _ _
            (fun m' => by by_cases hmm : m' = m <;> simp [hmm, (hab 1).1 m'])
  | cons s rest ih =>
      intro a b m h t hab hok
      cases s with
      | nil =>
          simp only [addSegs] at hok ⊢
          exact ih a b m h t hab hok
      | cons c cs =>
          obtain ⟨v, hrec, hset, hparam, hwild⟩ := addSegs_cons_ok a c cs rest m h t hok
          rcases equivN_getChild a b hab (slotOf c cs) with ⟨hga, hgb⟩ |
            ⟨x, y, hga, hgb, hxy, hsegxy⟩
          · rw [startChild, hga] at hrec
            have hbrec : addSegs (startChild b (slotOf c cs) (c :: cs)) rest m h =
                Except.ok v := by
              rw [startChild, hgb]
              exact hrec
            have hbparam : ∀ pc, slotOf c cs = Slot.param →
                b.param_child = some pc → pc.segment = c :: cs := by
              intro pc hp hbp
              rw [hp] at hgb
              simp only [getChild] at hgb
              rw [hbp] at hgb
              cases hgb
            refine ⟨setChild b (slotOf c cs) v,
              addSegs_cons_mk b c cs rest m h v hbrec hbparam hwild, ?_⟩
            rw [hset]
            exact equivN_setChild a b hab _ v v (equivN_refl v) (fun _ => rfl)
          · rw [startChild, hga] at hrec
            obtain ⟨v', hbrec0, hvv'⟩ := ih x y m h v hxy hrec
            have hbrec : addSegs (startChild b (slotOf c cs) (c :: cs)) rest m h =
                Except.ok v' := by
              rw [startChild, hgb]
              exact hbrec0
            have hbparam : ∀ pc, slotOf c cs = Slot.param →
                b.param_child = some pc → pc.segment = c :: cs := by
              intro pc hp hbp
              rw [hp] at hga hgb
              simp only [getChild] at hga hgb
              rw [hbp] at hgb
              injection hgb with hgb'
              rw [hgb', ← hsegxy hp]
              exact hparam x hp hga
            refine ⟨setChild b (slotOf c cs) v',
              addSegs_cons_mk b c cs rest m h v' hbrec hbparam hwild, ?_⟩
            rw [hset]
            refine equivN_setChild a b hab _ v v' hvv' (fun hp => ?_)
            have p1 := addSegs_preserves rest x m h v hrec
            have p2 := addSegs_preserves rest y m h v' hbrec0
            rw [p1.1, p2.1, hsegxy hp]

end WebRouter

namespace WebRouter

theorem freshChild_segment (σ : Slot) (s : List Char) :
    (freshChild σ s).segment = s := by cases σ <;> rfl

theorem startChild_handlers_update (n : Node) (u : Method → Option Nat)
    (σ : Slot) (s : List Char) :
    startChild { n with handlers := u } σ s = startChild n σ s := by
  rw [startChild, startChild, getChild_handlers_update]

/-- Two handler installations at the root commute (`m₂ ≠ m₁` is forced by
the second one succeeding). -/
theorem addSegs_swap_nil_nil (n : Node) (m₁ m₂ : Method) (h₁ h₂ : Nat)
    (n₁ n₂ : Node)
    (hadd₁ : addSegs n [] m₁ h₁ = Except.ok n₁)
    (hadd₂ : addSegs n₁ [] m₂ h₂ = Except.ok n₂) :
    ∃ n₁' n₂', addSegs n [] m₂ h₂ = Except.ok n₁' ∧
      addSegs n₁' [] m₁ h₁ = Except.ok n₂' ∧ EquivN n₂ n₂' := by
  simp only [addSegs] at hadd₁
  cases hm₁ : n.handlers m₁ with
  | some x => rw [hm₁] at hadd₁; cases hadd₁
  | none =>
      rw [hm₁] at hadd₁
      dsimp only at hadd₁
      injection hadd₁ with hn₁
      rw [← hn₁] at hadd₂
      simp only [addSegs] at hadd₂
      by_cases hmm : m₂ = m₁
      · rw [if_pos hmm] at hadd₂
        cases hadd₂
      · rw [if_neg hmm] at hadd₂
        cases hm₂ : n.handlers m₂ with
        | some x => rw [hm₂] at hadd₂; cases hadd₂
        | none =>
            rw [hm₂] at hadd₂
            dsimp only at hadd₂
            injection hadd₂ with hn₂
            refine ⟨{ n with handlers := fun m' => if m' = m₂ then some h₂ else n.handlers m' },
              { n with handlers := fun m' => if m' = m₁ then some h₁ else
                  if m' = m₂ then some h₂ else n.handlers m' }, ?_, ?_, ?_⟩
            · simp only [addSegs]
              rw [hm₂]
            · simp only [addSegs]
              rw [if_neg (fun he => hmm he.symm), hm₁]
            · rw [← hn₂]
              refine equivN_of_parts _ _ (fun m' => ?_) rfl rfl rfl
              by_cases e2 : m' = m₂ <;> by_cases e1 : m' = m₁ <;>
                simp [e1, e2] <;> simp_all
  

/-- A root handler installation commutes forward past a descending step. -/
theorem addSegs_swap_nil_cons (n : Node) (m₁ m₂ : Method) (h₁ h₂ : Nat)
    (n₁ n₂ : Node) (c : Char) (cs : List Char) (r₂ : List (List Char))
    (hadd₁ : addSegs n [] m₁ h₁ = Except.ok n₁)
    (hadd₂ : addSegs n₁ ((c :: cs) :: r₂) m₂ h₂ = Except.ok n₂) :
    ∃ n₁' n₂', addSegs n ((c :: cs) :: r₂) m₂ h₂ = Except.ok n₁' ∧
      addSegs n₁' [] m₁ h₁ = Except.ok n₂' ∧ EquivN n₂ n₂' := by
  simp only [addSegs] at hadd₁
  cases hm₁ : n.handlers m₁ with
  | some x => rw [hm₁] at hadd₁; cases hadd₁
  | none =>
      rw [hm₁] at hadd₁
      dsimp only at hadd₁
      injection hadd₁ with hn₁
      rw [← hn₁] at hadd₂
      obtain ⟨v, hrec, hset, hparam, hwild⟩ :=
        addSegs_cons_ok _ c cs r₂ m₂ h₂ n₂ hadd₂
      rw [startChild_handlers_update] at hrec
      have hparam' : ∀ pc, slotOf c cs = Slot.param →
          n.param_child = some pc → pc.segment = c :: cs :=
        fun pc hp hnp => hparam pc hp hnp
      refine ⟨setChild n (slotOf c cs) v,
        { setChild n (slotOf c cs) v with
            handlers := fun m' => if m' = m₁ then some h₁ else
              (setChild n (slotOf c cs) v).handlers m' },
        addSegs_cons_mk n c cs r₂ m₂ h₂ v hrec hparam' hwild, ?_, ?_⟩
      · simp only [addSegs]
        have : (setChild n (slotOf c cs) v).handlers m₁ = none := by
          rw [setChild_handlers]
          exact hm₁
        rw [this]
      · rw [hset, setChild_handlers_update]
        refine equivN_of_parts _ _ (fun m' => ?_) rfl rfl rfl
        rw [setChild_handlers]
  
/-- A descending step commutes forward past a root handler installation. -/
theorem addSegs_swap_cons_nil (n : Node) (m₁ m₂ : Method) (h₁ h₂ : Nat)
    (n₁ n₂ : Node) (c : Char) (cs : List Char) (r₁ : List (List Char))
    (hadd₁ : addSegs n ((c :: cs) :: r₁) m₁ h₁ = Except.ok n₁)
    (hadd₂ : addSegs n₁ [] m₂ h₂ = Except.ok n₂) :
    ∃ n₁' n₂', addSegs n [] m₂ h₂ = Except.ok n₁' ∧
      addSegs n₁' ((c :: cs) :: r₁) m₁ h₁ = Except.ok n₂' ∧ EquivN n₂ n₂' := by
  obtain ⟨v₁, hrec1, hset1, hparam1, hwild1⟩ :=
    addSegs_cons_ok n c cs r₁ m₁ h₁ n₁ hadd₁
  rw [hset1] at hadd₂
  simp only [addSegs] at hadd₂
  cases hm₂ : (setChild n (slotOf c cs) v₁).handlers m₂ with
  | some x => rw [hm₂] at hadd₂; cases hadd₂
  | none =>
      rw [hm₂] at hadd₂
      dsimp only at hadd₂
      injection hadd₂ with hn₂
      have hm₂' : n.handlers m₂ = none := by
        rw [← setChild_handlers n (slotOf c cs) v₁]
        exact hm₂
      refine ⟨{ n with handlers := fun m' => if m' = m₂ then some h₂ else n.handlers m' },
        setChild { n with handlers := fun m' => if m' = m₂ then some h₂ else n.handlers m' }
          (slotOf c cs) v₁, ?_, ?_, ?_⟩
      · simp only [addSegs]
        rw [hm₂']
      · refine addSegs_cons_mk _ c cs r₁ m₁ h₁ v₁ ?_ ?_ hwild1
        · rw [startChild_handlers_update]
          exact hrec1
        · exact fun pc hp hnp => hparam1 pc hp hnp
      · rw [← hn₂, setChild_handlers_update]
        refine equivN_of_parts _ _ (fun m' => ?_) rfl rfl rfl
        rw [setChild_handlers]

end WebRouter

namespace WebRouter

theorem addSegs_nil_ok (X : Node) (m : Method) (h : Nat) (hm : X.handlers m = none) :
    addSegs X [] m h =
      Except.ok { X with handlers := fun m' => if m' = m then some h else X.handlers m' } := by
  simp only [addSegs]
  rw [hm]

theorem addSegs_nil_inv (X : Node) (m : Method) (h : Nat) (Y : Node)
    (hok : addSegs X [] m h = Except.ok Y) :
    X.handlers m = none ∧
    Y = { X with handlers := fun m' => if m' = m then some h else X.handlers m' } := by
  simp only [addSegs] at hok
  cases hm : X.handlers m with
  | some x => rw [hm] at hok; cases hok
  | none =>
      rw [hm] at hok
      dsimp only at hok
      injection hok with hok'
      exact ⟨rfl, hok'.symm⟩

theorem setChild_param_child_ne (n : Node) (σ : Slot) (v : Node)
    (h : σ ≠ Slot.param) :
    (setChild n σ v).param_child = n.param_child := by
  have := getChild_setChild_ne n σ Slot.param v (fun he => h he.symm)
  simpa [getChild] using this

end WebRouter

namespace WebRouter

/-- Two successful registrations commute: performing them in the other order
also succeeds and produces an `EquivN`-equivalent tree.  (Plain equality can
fail only in wildcard capture names: registering `/a/*x` then `/a/*y` reuses
one wildcard node whose `param_name` depends on which came first.) -/
theorem addSegs_swap (k : Nat) :
    ∀ (l₁ l₂ : List (List Char)) (n : Node) (m₁ m₂ : Method) (h₁ h₂ : Nat)
      (n₁ n₂ : Node),
    l₁.length + l₂.length ≤ k →
    [] ∉ l₁ → [] ∉ l₂ →
    addSegs n l₁ m₁ h₁ = Except.ok n₁ →
    addSegs n₁ l₂ m₂ h₂ = Except.ok n₂ →
    ∃ n₁' n₂', addSegs n l₂ m₂ h₂ = Except.ok n₁' ∧
      addSegs n₁' l₁ m₁ h₁ = Except.ok n₂' ∧ EquivN n₂ n₂' := by
  induction k with
  | zero =>
      intro l₁ l₂ n m₁ m₂ h₁ h₂ n₁ n₂ hlen hne₁ hne₂ hadd₁ hadd₂
      have hl₁ : l₁ = [] := List.eq_nil_of_length_eq_zero (by omega)
      have hl₂ : l₂ = [] := List.eq_nil_of_length_eq_zero (by omega)
      subst hl₁; subst hl₂
      exact addSegs_swap_nil_nil n m₁ m₂ h₁ h₂ n₁ n₂ hadd₁ hadd₂
  | succ k ih =>
      intro l₁ l₂ n m₁ m₂ h₁ h₂ n₁ n₂ hlen hne₁ hne₂ hadd₁ hadd₂
      cases l₁ with
      | nil =>
          cases l₂ with
          | nil => exact addSegs_swap_nil_nil n m₁ m₂ h₁ h₂ n₁ n₂ hadd₁ hadd₂
          | cons s₂ r₂ =>
              cases s₂ with
              | nil => exact absurd (List.mem_cons_self _ _) hne₂
              | cons c₂ cs₂ =>
                  exact addSegs_swap_nil_cons n m₁ m₂ h₁ h₂ n₁ n₂ c₂ cs₂ r₂ hadd₁ hadd₂
      | cons s₁ r₁ =>
          cases s₁ with
          | nil => exact absurd (List.mem_cons_self _ _) hne₁
          | cons c₁ cs₁ =>
              cases l₂ with
              | nil =>
                  exact addSegs_swap_cons_nil n m₁ m₂ h₁ h₂ n₁ n₂ c₁ cs₁ r₁ hadd₁ hadd₂
              | cons s₂ r₂ =>
                  cases s₂ with
                  | nil => exact absurd (List.mem_cons_self _ _) hne₂
                  | cons c₂ cs₂ =>
                      obtain ⟨v₁, hrec1, hset1, hparam1, hwild1⟩ :=
                        addSegs_cons_ok n c₁ cs₁ r₁ m₁ h₁ n₁ hadd₁
                      subst hset1
                      obtain ⟨v₂, hrec2, hset2, hparam2, hwild2⟩ :=
                        addSegs_cons_ok _ c₂ cs₂ r₂ m₂ h₂ n₂ hadd₂
                      subst hset2
                      have hner₁ : [] ∉ r₁ := fun hm => hne₁ (List.mem_cons_of_mem _ hm)
                      have hner₂ : [] ∉ r₂ := fun hm => hne₂ (List.mem_cons_of_mem _ hm)
                      by_cases hσ : slotOf c₂ cs₂ = slotOf c₁ cs₁
                      · -- same slot
                        rw [hσ] at hrec2 hparam2 hwild2
                        rw [startChild, getChild_setChild_same] at hrec2
                        by_cases hwcase : slotOf c₁ cs₁ = Slot.wild ∧
                            getChild n (slotOf c₁ cs₁) = none
                        · -- wildcard slot, created fresh: capture names may differ
                          obtain ⟨hw, hgnone⟩ := hwcase
                          have hr₁ : r₁ = [] := hwild1 hw
                          have hr₂ : r₂ = [] := hwild2 hw
                          subst hr₁; subst hr₂
                          rw [startChild, hgnone, hw] at hrec1
                          obtain ⟨hm₁, hv₁⟩ := addSegs_nil_inv _ _ _ _ hrec1
                          subst hv₁
                          obtain ⟨hm₂, hv₂⟩ := addSegs_nil_inv _ _ _ _ hrec2
                          subst hv₂
                          dsimp only at hm₂
                          have hne : m₂ ≠ m₁ := by
                            intro he
                            rw [if_pos he] at hm₂
                            cases hm₂
                          have hgnone' : getChild n Slot.wild = none := hw ▸ hgnone
                          refine ⟨setChild n (slotOf c₂ cs₂)
                              { freshChild Slot.wild (c₂ :: cs₂) with
                                  handlers := fun m' => if m' = m₂ then some h₂ else
                                    (freshChild Slot.wild (c₂ :: cs₂)).handlers m' },
                            setChild (setChild n (slotOf c₂ cs₂)
                              { freshChild Slot.wild (c₂ :: cs₂) with
                                  handlers := fun m' => if m' = m₂ then some h₂ else
                                    (freshChild Slot.wild (c₂ :: cs₂)).handlers m' })
                              (slotOf c₁ cs₁)
                              { { freshChild Slot.wild (c₂ :: cs₂) with
                                    handlers := fun m' => if m' = m₂ then some h₂ else
                                      (freshChild Slot.wild (c₂ :: cs₂)).handlers m' } with
                                  handlers := fun m' => if m' = m₁ then some h₁ else
                                    (if m' = m₂ then some h₂ else
                                      (freshChild Slot.wild (c₂ :: cs₂)).handlers m') },
                            ?_, ?_, ?_⟩
                          · refine addSegs_cons_mk n c₂ cs₂ [] m₂ h₂ _ ?_ ?_ (fun _ => rfl)
                            · rw [startChild, hσ, hw, hgnone']
                              exact addSegs_nil_ok _ m₂ h₂ rfl
                            · intro pc hp _
                              exact absurd ((hσ.symm.trans hp).symm.trans hw)
                                (fun he => Slot.noConfusion he)
                          · refine addSegs_cons_mk _ c₁ cs₁ [] m₁ h₁ _ ?_ ?_ (fun _ => rfl)
                            · rw [startChild, hσ, getChild_setChild_same]
                              refine addSegs_nil_ok _ m₁ h₁ ?_
                              dsimp only
                              rw [if_neg (fun he => hne he.symm)]
                              rfl
                            · intro pc hp _
                              exact absurd (hp.symm.trans hw) (fun he => Slot.noConfusion he)
                          · rw [hσ, setChild_overwrite, setChild_overwrite]
                            refine equivN_setChild n n (equivN_refl n) _ _ _ ?_
                              (fun hp => absurd (hp.symm.trans hw) (fun he => Slot.noConfusion he))
                            refine equivN_of_parts _ _ (fun m' => ?_) rfl rfl rfl
                            dsimp only
                            by_cases e1 : m' = m₁
                            · have e2h : m' ≠ m₂ := fun he => hne (he.symm.trans e1)
                              simp only [if_pos e1, if_neg e2h]
                            · by_cases e2h : m' = m₂
                              · simp only [if_pos e2h, if_neg e1]
                              · simp only [if_neg e1, if_neg e2h]
                                rfl
                        · -- uniform: both orders descend from the same start child
                          have huni : startChild n (slotOf c₁ cs₁) (c₂ :: cs₂) =
                              startChild n (slotOf c₁ cs₁) (c₁ :: cs₁) := by
                            cases hg : getChild n (slotOf c₁ cs₁) with
                            | some x => rw [startChild, startChild, hg]
                            | none =>
                                have hss : c₂ :: cs₂ = c₁ :: cs₁ := by
                                  cases hslot : slotOf c₁ cs₁ with
                                  | statik k₀ =>
                                      have e1 := slotOf_statik_inv c₁ cs₁ k₀ hslot
                                      have e2 := slotOf_statik_inv c₂ cs₂ k₀ (hσ.trans hslot)
                                      rw [← e1, ← e2]
                                  | param =>
                                      have hv₁seg : v₁.segment = c₂ :: cs₂ := by
                                        refine hparam2 v₁ hslot ?_
                                        rw [hslot]
                                        rfl
                                      have hv₁seg' : v₁.segment = c₁ :: cs₁ := by
                                        have := (addSegs_preserves r₁ _ m₁ h₁ v₁ hrec1).1
                                        rw [this, startChild, hg, hslot, freshChild_segment]
                                      rw [← hv₁seg, hv₁seg']
                                  | wild => exact absurd ⟨hslot, hg⟩ hwcase
                                rw [hss]
                          obtain ⟨w₁, w₂, e1c, e2c, hE⟩ :=
                            ih r₁ r₂ (startChild n (slotOf c₁ cs₁) (c₁ :: cs₁)) m₁ m₂ h₁ h₂
                              v₁ v₂ (by simp only [List.length_cons] at hlen; omega)
                              hner₁ hner₂ hrec1 hrec2
                          have hc0seg : slotOf c₁ cs₁ = Slot.param →
                              (startChild n (slotOf c₁ cs₁) (c₁ :: cs₁)).segment = c₁ :: cs₁ := by
                            intro hp
                            cases hg : getChild n (slotOf c₁ cs₁) with
                            | some x =>
                                rw [startChild, hg]
                                refine hparam1 x hp ?_
                                rw [hp] at hg
                                simpa [getChild] using hg
                            | none =>
                                rw [startChild, hg, freshChild_segment]
                          refine ⟨setChild n (slotOf c₁ cs₁) w₁,
                            setChild (setChild n (slotOf c₁ cs₁) w₁) (slotOf c₁ cs₁) w₂,
                            ?_, ?_, ?_⟩
                          · rw [← hσ]
                            refine addSegs_cons_mk n c₂ cs₂ r₂ m₂ h₂ w₁ ?_ ?_
                              (fun hw => hwild2 (hσ.symm.trans hw))
                            · rw [startChild, hσ, ← startChild, huni]
                              exact e1c
                            · intro pc hp hnp
                              have hp₁ : slotOf c₁ cs₁ = Slot.param := hσ.symm.trans hp
                              have hc0 : startChild n (slotOf c₁ cs₁) (c₁ :: cs₁) = pc := by
                                rw [startChild, hp₁]
                                have : getChild n Slot.param = some pc := hnp
                                rw [this]
                              have hv₁c₂ : v₁.segment = c₂ :: cs₂ := by
                                refine hparam2 v₁ hp₁ ?_
                                rw [hp₁]
                                rfl
                              have hv₁c0 : v₁.segment =
                                  (startChild n (slotOf c₁ cs₁) (c₁ :: cs₁)).segment :=
                                (addSegs_preserves r₁ _ m₁ h₁ v₁ hrec1).1
                              rw [← hc0, ← hv₁c0, hv₁c₂]
                          · refine addSegs_cons_mk _ c₁ cs₁ r₁ m₁ h₁ w₂ ?_ ?_ hwild1
                            · rw [startChild, getChild_setChild_same]
                              exact e2c
                            · intro pc hp hnp
                              rw [hp] at hnp
                              have : w₁ = pc := by
                                simpa [setChild] using hnp
                              have hw₁c0 : w₁.segment =
                                  (startChild n (slotOf c₁ cs₁) (c₁ :: cs₁)).segment :=
                                (addSegs_preserves r₂ _ m₂ h₂ w₁ e1c).1
                              rw [← this, hw₁c0]
                              exact hc0seg hp
                          · rw [hσ, setChild_overwrite, setChild_overwrite]
                            refine equivN_setChild n n (equivN_refl n) _ _ _ hE (fun hp => ?_)
                            have hv₂c0 := (addSegs_preserves r₂ _ m₂ h₂ v₂ hrec2).1.trans
                              (addSegs_preserves r₁ _ m₁ h₁ v₁ hrec1).1
                            have hw₂c0 := (addSegs_preserves r₁ _ m₁ h₁ w₂ e2c).1.trans
                              (addSegs_preserves r₂ _ m₂ h₂ w₁ e1c).1
                            rw [hv₂c0, hw₂c0]
                      · -- different slots: the two writes are independent
                        have hσ' : slotOf c₁ cs₁ ≠ slotOf c₂ cs₂ := fun he => hσ he.symm
                        have hsc2 : startChild (setChild n (slotOf c₁ cs₁) v₁)
                            (slotOf c₂ cs₂) (c₂ :: cs₂) =
                            startChild n (slotOf c₂ cs₂) (c₂ :: cs₂) := by
                          rw [startChild, startChild, getChild_setChild_ne _ _ _ _ hσ]
                        rw [hsc2] at hrec2
                        have hparam2' : ∀ pc, slotOf c₂ cs₂ = Slot.param →
                            n.param_child = some pc → pc.segment = c₂ :: cs₂ := by
                          intro pc hp hnp
                          refine hparam2 pc hp ?_
                          rw [setChild_param_child_ne n _ v₁ (fun he => hσ (hp.trans he.symm))]
                          exact hnp
                        refine ⟨setChild n (slotOf c₂ cs₂) v₂,
                          setChild (setChild n (slotOf c₂ cs₂) v₂) (slotOf c₁ cs₁) v₁,
                          addSegs_cons_mk n c₂ cs₂ r₂ m₂ h₂ v₂ hrec2 hparam2' hwild2,
                          ?_, ?_⟩
                        · refine addSegs_cons_mk _ c₁ cs₁ r₁ m₁ h₁ v₁ ?_ ?_ hwild1
                          · rw [startChild, getChild_setChild_ne _ _ _ _ hσ', ← startChild]
                            exact hrec1
                          · intro pc hp hnp
                            refine hparam1 pc hp ?_
                            rw [setChild_param_child_ne n _ v₂
                              (fun he => hσ (he.trans hp.symm))] at hnp
                            exact hnp
                        · rw [setChild_comm n _ _ v₁ v₂ hσ']
                          exact equivN_refl _

/-- `split_path` never produces an empty segment (the `filter` keeps only
non-empty pieces). -/
theorem split_path_no_empty (p : List Char) : [] ∉ split_path p := by
  intro h
  rw [split_path] at h
  split at h
  · exact List.not_mem_nil _ h
  · have := List.mem_filter.mp h
    simp at this

/-- `addAll` respects tree equivalence, route list fixed. -/
theorem addAll_respects_equiv (rs : List (List Char × Method × Nat)) :
    ∀ (a b t : Node), EquivN a b → addAll a rs = Except.ok t →
    ∃ t', addAll b rs = Except.ok t' ∧ EquivN t t' := by
  induction rs with
  | nil =>
      intro a b t hab hok
      rw [addAll] at hok
      cases hok
      exact ⟨b, rfl, hab⟩
  | cons r rs ih =>
      intro a b t hab hok
      obtain ⟨p, m, h⟩ := r
      rw [addAll] at hok
      cases ha : add_route a p m h with
      | error e => rw [ha] at hok; cases hok
      | ok a' =>
          rw [ha] at hok
          obtain ⟨b', hb, hab'⟩ :=
            addSegs_respects_equiv (split_path p) a b m h a' hab ha
          obtain ⟨t', ht, htt⟩ := ih a' b' t hab' hok
          refine ⟨t', ?_, htt⟩
          rw [addAll, add_route, hb]
          exact ht

/-- Registering the same set of routes in any order yields `EquivN`-equivalent
trees (in particular, the same handler table at every reachable node). -/
theorem addAll_perm (rs₁ rs₂ : List (List Char × Method × Nat))
    (hp : rs₁.Perm rs₂) :
    ∀ (root t₁ : Node), addAll root rs₁ = Except.ok t₁ →
    ∃ t₂, addAll root rs₂ = Except.ok t₂ ∧ EquivN t₁ t₂ := by
  induction hp with
  | nil =>
      intro root t₁ hok
      exact ⟨t₁, hok, equivN_refl t₁⟩
  | cons x hl ih =>
      intro root t₁ hok
      obtain ⟨p, m, h⟩ := x
      rw [addAll] at hok
      cases ha : add_route root p m h with
      | error e => rw [ha] at hok; cases hok
      | ok root' =>
          rw [ha] at hok
          obtain ⟨t₂, ht₂, hE⟩ := ih root' t₁ hok
          refine ⟨t₂, ?_, hE⟩
          rw [addAll, ha]
          exact ht₂
  | swap x y l =>
      intro root t₁ hok
      obtain ⟨p₁, m₁, h₁⟩ := y
      obtain ⟨p₂, m₂, h₂⟩ := x
      rw [addAll] at hok
      cases ha : add_route root p₁ m₁ h₁ with
      | error e => rw [ha] at hok; cases hok
      | ok a =>
          rw [ha] at hok
          change addAll a ((p₂, m₂, h₂) :: l) = Except.ok t₁ at hok
          rw [addAll] at hok
          cases hb : add_route a p₂ m₂ h₂ with
          | error e => rw [hb] at hok; cases hok
          | ok b =>
              rw [hb] at hok
              obtain ⟨a', b', ha', hb', hE⟩ :=
                addSegs_swap ((split_path p₁).length + (split_path p₂).length)
                  (split_path p₁) (split_path p₂) root m₁ m₂ h₁ h₂ a b
                  (le_refl _) (split_path_no_empty p₁) (split_path_no_empty p₂)
                  ha hb
              obtain ⟨t₂, ht₂, htE⟩ := addAll_respects_equiv l b b' t₁ hE hok
              refine ⟨t₂, ?_, htE⟩
              rw [addAll, add_route, ha']
              show addAll a' ((p₁, m₁, h₁) :: l) = Except.ok t₂
              rw [addAll, add_route, hb']
              exact ht₂
  | trans h₁₂ h₂₃ ih₁ ih₂ =>
      intro root t₁ hok
      obtain ⟨t₂, h₂, hE₂⟩ := ih₁ root t₁ hok
      obtain ⟨t₃, h₃, hE₃⟩ := ih₂ root t₂ h₂
      exact ⟨t₃, h₃, equivN_trans t₁ t₂ t₃ hE₂ hE₃⟩

/-- Steps 4–6 of `find_route` read only the handler map, so two nodes with
pointwise-equal handlers classify identically in status and handler (the
params accumulators may differ). -/
theorem classifyNode_agree (a b : Node) (m : Method)
    (ps₁ ps₂ : List (List Char × List Char))
    (hh : ∀ m', a.handlers m' = b.handlers m') :
    (classifyNode a m ps₁).status = (classifyNode b m ps₂).status ∧
    (classifyNode a m ps₁).handler = (classifyNode b m ps₂).handler := by
  have he : handlersEmpty a = handlersEmpty b := by
    rw [handlersEmpty, handlersEmpty, hh, hh, hh, hh, hh, hh]
  rw [classifyNode, classifyNode, he, hh]
  by_cases hemp : handlersEmpty b = true
  · rw [if_pos hemp, if_pos hemp]
    exact ⟨rfl, rfl⟩
  · rw [if_neg hemp, if_neg hemp]
    cases b.handlers m <;> exact ⟨rfl, rfl⟩

/-- The `find_route` walk returns the same status and handler on trees that
are `NodeEquiv`-related deep enough for the query (captured parameter names
may differ, only for wildcard captures). -/
theorem findSegs_agree : ∀ (segs : List (List Char)) (a b : Node) (m : Method)
    (ps₁ ps₂ : List (List Char × List Char)),
    NodeEquiv (segs.length + 1) a b →
    (findSegs a segs m ps₁).status = (findSegs b segs m ps₂).status ∧
    (findSegs a segs m ps₁).handler = (findSegs b segs m ps₂).handler := by
  intro segs
  induction segs with
  | nil =>
      intro a b m ps₁ ps₂ hE
      exact classifyNode_agree a b m ps₁ ps₂ hE.1
  | cons s rest ih =>
      intro a b m ps₁ ps₂ hE
      obtain ⟨hh, hs, hp, hw⟩ := hE
      have hss := hs s
      rw [findSegs, findSegs]
      cases ha : a.static_children s with
      | some x =>
          rw [ha] at hss
          cases hb : b.static_children s with
          | some y =>
              rw [hb] at hss
              exact ih x y m ps₁ ps₂ hss
          | none =>
              rw [hb] at hss
              exact hss.elim
      | none =>
          rw [ha] at hss
          cases hb : b.static_children s with
          | some y =>
              rw [hb] at hss
              exact hss.elim
          | none =>
              cases hpa : a.param_child with
              | some pa =>
                  rw [hpa] at hp
                  cases hpb : b.param_child with
                  | some pb =>
                      rw [hpb] at hp
                      obtain ⟨hseg, hrec⟩ := hp
                      exact ih pa pb m _ _ hrec
                  | none =>
                      rw [hpb] at hp
                      exact hp.elim
              | none =>
                  rw [hpa] at hp
                  cases hpb : b.param_child with
                  | some pb =>
                      rw [hpb] at hp
                      exact hp.elim
                  | none =>
                      cases hwa : a.wildcard_child with
                      | some wa =>
                          rw [hwa] at hw
                          cases hwb : b.wildcard_child with
                          | some wb =>
                              rw [hwb] at hw
                              obtain ⟨hwh, -, -, -⟩ := hw
                              exact classifyNode_agree wa wb m _ _ hwh
                          | none =>
                              rw [hwb] at hw
                              exact hw.elim
                      | none =>
                          rw [hwa] at hw
                          cases hwb : b.wildcard_child with
                          | some wb =>
                              rw [hwb] at hw
                              exact hw.elim
                          | none => exact ⟨rfl, rfl⟩

/-- Demo registrations from the spec's walkthrough: a static route `/a/b`
(handler 0) and a parametric route `/a/:x` (handler 1). -/
def demoRoutes₁ : List (List Char × Method × Nat) :=
  [("/a/b".toList, Method.kGet, 0), ("/a/:x".toList, Method.kGet, 1)]

/-- The same registrations in the opposite order. -/
def demoRoutes₂ : List (List Char × Method × Nat) :=
  [("/a/:x".toList, Method.kGet, 1), ("/a/b".toList, Method.kGet, 0)]

/-- The tree built by the first registration order. -/
def demoTree : Node :=
  match addAll Node.empty demoRoutes₁ with
  | Except.ok t => t
  | Except.error _ => Node.empty

/-- C7: `find_route` tries, per segment, the exact static child, then the
parametric child (capturing the segment), then the wildcard child (capturing
the '/'-joined remainder and ending the walk), else `NOT_FOUND_URL`; at the
terminal node it returns `NOT_FOUND_URL` when the handler map is empty,
`NOT_FOUND_METHOD` when the method is absent, and `FOUND` with the registered
handler otherwise; and the status and handler are independent of the
insertion order of the (non-conflicting, i.e. all-successful) `add_route`
calls that built the table. -/
theorem c7_find_route_matching_and_order_independence :
    (∀ (n : Node) (seg : List Char) (rest : List (List Char)) (m : Method)
       (ps : List (List Char × List Char)),
      findSegs n (seg :: rest) m ps =
        match n.static_children seg with
        | some sc => findSegs sc rest m ps
        | none =>
            match n.param_child with
            | some pc => findSegs pc rest m (insertA ps pc.param_name seg)
            | none =>
                match n.wildcard_child with
                | some wc =>
                    classifyNode wc m (insertA ps wc.param_name (joinSlash (seg :: rest)))
                | none => ⟨RouteStatus.NOT_FOUND_URL, none, []⟩) ∧
    (∀ (n : Node) (m : Method) (ps : List (List Char × List Char)),
      findSegs n [] m ps =
        (if handlersEmpty n then ⟨RouteStatus.NOT_FOUND_URL, none, []⟩
         else match n.handlers m with
              | none => ⟨RouteStatus.NOT_FOUND_METHOD, none, []⟩
              | some h => ⟨RouteStatus.FOUND, some h, ps⟩)) ∧
    (∀ (rs₁ rs₂ : List (List Char × Method × Nat)) (root t₁ : Node),
      rs₁.Perm rs₂ → addAll root rs₁ = Except.ok t₁ →
      ∃ t₂, addAll root rs₂ = Except.ok t₂ ∧
        ∀ (p : List Char) (m : Method),
          (find_route t₁ p m).status = (find_route t₂ p m).status ∧
          (find_route t₁ p m).handler = (find_route t₂ p m).handler) := by
  refine ⟨fun n seg rest m ps => rfl, fun n m ps => rfl, ?_⟩
  intro rs₁ rs₂ root t₁ hperm hok
  obtain ⟨t₂, hok₂, hE⟩ := addAll_perm rs₁ rs₂ hperm root t₁ hok
  refine ⟨t₂, hok₂, fun p m => ?_⟩
  exact findSegs_agree (split_path p) t₁ t₂ m [] [] (hE ((split_path p).length + 1))

/-- C7 witness: the spec's demo routes registered in both orders give the same
statuses and handlers; concretely, `/a/b` hits the static handler, `/a/c` the
parametric one, and `/d` is `NOT_FOUND_URL`. -/
theorem c7_find_route_matching_and_order_independence_witness :
    demoRoutes₁.Perm demoRoutes₂ ∧
    addAll Node.empty demoRoutes₁ = Except.ok demoTree ∧
    (∃ t₂, addAll Node.empty demoRoutes₂ = Except.ok t₂ ∧
      ∀ (p : List Char) (m : Method),
        (find_route demoTree p m).status = (find_route t₂ p m).status ∧
        (find_route demoTree p m).handler = (find_route t₂ p m).handler) ∧
    (find_route demoTree "/a/b".toList Method.kGet).handler = some 0 ∧
    (find_route demoTree "/a/c".toList Method.kGet).handler = some 1 ∧
    (find_route demoTree "/d".toList Method.kGet).status = RouteStatus.NOT_FOUND_URL := by
  refine ⟨List.Perm.swap _ _ _, rfl, ?_, rfl, rfl, rfl⟩
  exact c7_find_route_matching_and_order_independence.2.2 demoRoutes₁ demoRoutes₂
    Node.empty demoTree (List.Perm.swap _ _ _) rfl

/-- The `""`/`"/"` short-circuit of `split_path` agrees with the general
branch: `split_path` is exactly "split on `'/'`, drop empty segments". -/
theorem split_path_eq_filter (p : List Char) :
    split_path p = (p.splitOn '/').filter (fun s => s ≠ []) := by
  rw [split_path]
  split
  · next h => rcases h with rfl | rfl <;> rfl
  · rfl

/-- C10: `add_route` and `find_route` interpret paths modulo empty segments —
two paths with the same non-empty `'/'`-segment sequence give identical
`find_route` results and identical registrations; in particular `"/a//b/"`
collapses to `"/a/b"` and `""` to `"/"`. -/
theorem c10_paths_modulo_empty_segments :
    (∀ (t : Node) (m : Method) (h : Nat) (p q : List Char),
      (p.splitOn '/').filter (fun s => s ≠ []) =
        (q.splitOn '/').filter (fun s => s ≠ []) →
      find_route t p m = find_route t q m ∧
      add_route t p m h = add_route t q m h) ∧
    split_path "/a//b/".toList = split_path "/a/b".toList ∧
    split_path "".toList = split_path "/".toList ∧
    split_path "/a/b".toList = ["a".toList, "b".toList] := by
  refine ⟨?_, rfl, rfl, rfl⟩
  intro t m h p q hseg
  have hpq : split_path p = split_path q := by
    rw [split_path_eq_filter, split_path_eq_filter, hseg]
  constructor
  · rw [find_route, find_route, hpq]
  · rw [add_route, add_route, hpq]

/-- C10 witness: `"/a//b/"` and `"/a/b"` have the same non-empty segments, so
lookup and registration coincide on the demo tree. -/
theorem c10_paths_modulo_empty_segments_witness :
    (("/a//b/".toList.splitOn '/').filter (fun s => s ≠ []) =
      ("/a/b".toList.splitOn '/').filter (fun s => s ≠ [])) ∧
    find_route demoTree "/a//b/".toList Method.kGet =
      find_route demoTree "/a/b".toList Method.kGet ∧
    add_route demoTree "/a//b/".toList Method.kGet 7 =
      add_route demoTree "/a/b".toList Method.kGet 7 := by
  refine ⟨rfl, ?_, ?_⟩
  · exact (c10_paths_modulo_empty_segments.1 demoTree Method.kGet 7
      "/a//b/".toList "/a/b".toList rfl).1
  · exact (c10_paths_modulo_empty_segments.1 demoTree Method.kGet 7
      "/a//b/".toList "/a/b".toList rfl).2

end WebRouter

/-! ### TimerQueue (`src/unnamed/part_010`: Timer.h/Timer.cpp, TimerQueue.h,
TimerQueue.cpp)

Timers live on the heap (`new Timer`); the model's heap is `store : Nat →
Option Timer` with fresh addresses from a counter (real allocators may reuse
freed addresses — `activeTimers_`'s sequence numbers exist to guard that; the
fresh-address model is the clean abstraction of that guard).  Time is `Int`
microseconds (`TimeStamp::microSecondsSinceEpoch`); `TimeStamp::invalid()`
is the epoch (0).  `interval` is kept in microseconds, so `Timer::restart`'s
`delta = interval_ * 1000000` is the field itself.  `timers_` (a
`std::set<std::pair<TimeStamp, Timer*>>`) and `activeTimers_`
(`std::set<std::pair<Timer*, int64_t>>`) are duplicate-free lists read by
membership; `getExpired`'s `lower_bound(Entry(now, UINTPTR_MAX))` on the
sorted set selects exactly the entries `(t, p)` with `(t, p) < (now, MAX)`,
i.e. `t ≤ now` (every real pointer is `< UINTPTR_MAX`), rendered as a
`filter`. -/

namespace TimerQueue

/-- `class Timer` (`Timer.h`): expiration, repeat interval, repeat flag
(`interval > 0.0` at construction), sequence number. -/
structure Timer where
  expiration : Int
  interval : Int
  repeat_ : Bool
  seq : Int
deriving DecidableEq

/-- `Timer::restart(now)`: repeating timers move to `now + interval`, others
become invalid (epoch 0). -/
def Timer.restart (t : Timer) (now : Int) : Timer :=
  if t.repeat_ then { t with expiration := now + t.interval }
  else { t with expiration := 0 }

/-- The `TimerQueue` state: the two indexes, the cancel ledger, the dispatch
flag, the heap, and the allocation/sequence counters. -/
structure TQState where
  timers : List (Int × Nat)
  activeTimers : List (Nat × Int)
  cancelingTimers : List (Nat × Int)
  callingExpiredTimers : Bool
  store : Nat → Option Timer
  nextAddr : Nat
  nextSeq : Int

/-- The freshly constructed queue: both indexes empty, flag down. -/
def TQState.init : TQState :=
  ⟨[], [], [], false, fun _ => none, 0, 0⟩

/-- `TimerQueue::insert(timer)` (the index part): emplace
`(timer->expiration(), timer)` into `timers_` and
`(timer, timer->sequence())` into `activeTimers_`.  (The
`earliestChanged`/`resetTimerfd` part touches no index.) -/
def insertT (s : TQState) (addr : Nat) : TQState :=
  match s.store addr with
  | none => s
  | some t =>
      { s with timers := (t.expiration, addr) :: s.timers,
               activeTimers := (addr, t.seq) :: s.activeTimers }

/-- `TimerQueue::addTimer` (the in-loop lambda): allocate a `Timer` with
`repeat_ = interval > 0`, a fresh sequence number, and `insert` it. -/
def addTimer (s : TQState) (exp interval : Int) : TQState :=
  let t : Timer := ⟨exp, interval, decide (0 < interval), s.nextSeq⟩
  insertT
    { s with store := fun a => if a = s.nextAddr then some t else s.store a,
             nextAddr := s.nextAddr + 1,
             nextSeq := s.nextSeq + 1 }
    s.nextAddr

/-- `TimerQueue::cancel` (the in-loop lambda): build the erase key from
`timerId.timer_->expiration()`; if the id is in `activeTimers_`, erase from
both indexes and free the timer; else if expired-timer dispatch is running,
record the id in `cancelingTimers_`; else do nothing. -/
def cancel (s : TQState) (addr : Nat) (sq : Int) : TQState :=
  let exp : Int := match s.store addr with
    | some t => t.expiration
    | none => 0
  if (addr, sq) ∈ s.activeTimers then
    { s with timers := s.timers.filter (fun e => e ≠ (exp, addr)),
             activeTimers := s.activeTimers.filter (fun p => p ≠ (addr, sq)),
             store := fun a => if a = addr then none else s.store a }
  else if s.callingExpiredTimers then
    { s with cancelingTimers := (addr, sq) :: s.cancelingTimers }
  else s

/-- `TimerQueue::getExpired(now)`: move every entry with expiration `≤ now`
out of `timers_` (the `lower_bound` sentinel selection) and erase each one's
`(timer, timer->sequence())` from `activeTimers_`. -/
def getExpired (s : TQState) (now : Int) : List (Int × Nat) × TQState :=
  let expired := s.timers.filter (fun e => decide (e.1 ≤ now))
  let remaining := s.timers.filter (fun e => !decide (e.1 ≤ now))
  let active' := expired.foldl
    (fun act e =>
      let sq : Int := match s.store e.2 with
        | some t => t.seq
        | none => 0
      act.filter (fun p => p ≠ (e.2, sq)))
    s.activeTimers
  (expired, { s with timers := remaining, activeTimers := active' })

/-- `TimerQueue::reset(expired, now)`: a repeating timer that was not
cancelled during dispatch is restarted and re-`insert`ed; every other expired
timer is freed. -/
def reset (s : TQState) (expired : List (Int × Nat)) (now : Int) : TQState :=
  expired.foldl
    (fun st e =>
      match st.store e.2 with
      | none => st
      | some t =>
          if t.repeat_ = true ∧ (e.2, t.seq) ∉ st.cancelingTimers then
            insertT
              { st with store := fun a => if a = e.2 then some (t.restart now)
                                          else st.store a }
              e.2
          else
            { st with store := fun a => if a = e.2 then none else st.store a })
    s

/-- An operation a user timer callback may perform during dispatch. -/
inductive CbOp where
  | addT (exp interval : Int)
  | cancelT (addr : Nat) (sq : Int)

/-- Run the expired timers' callbacks (step 2 of `handleChannelRead`): each
callback is user code that may add or cancel timers. -/
def runCbs (s : TQState) : List CbOp → TQState
  | [] => s
  | CbOp.addT e i :: ops => runCbs (addTimer s e i) ops
  | CbOp.cancelT a q :: ops => runCbs (cancel s a q) ops

/-- `TimerQueue::handleChannelRead()`: collect the expired timers, raise the
dispatch flag and clear the cancel ledger, run the callbacks, lower the flag,
then `reset` the expired timers. -/
def handleChannelRead (s : TQState) (now : Int) (cbs : List CbOp) : TQState :=
  let p := getExpired s now
  let s₂ := { p.2 with callingExpiredTimers := true, cancelingTimers := [] }
  let s₃ := runCbs s₂ cbs
  let s₄ := { s₃ with callingExpiredTimers := false }
  reset s₄ p.1 now

/-- The states a `TimerQueue` can reach: freshly constructed, then any
interleaving of `addTimer`, `cancel` and timerfd expiration dispatches. -/
inductive Reach : TQState → Prop where
  | init : Reach TQState.init
  | add (s : TQState) (exp interval : Int) : Reach s → Reach (addTimer s exp interval)
  | cxl (s : TQState) (addr : Nat) (sq : Int) : Reach s → Reach (cancel s addr sq)
  | tick (s : TQState) (now : Int) (cbs : List CbOp) :
      Reach s → Reach (handleChannelRead s now cbs)

end TimerQueue

namespace TimerQueue

/-- The two indexes agree and are consistent with the heap: every `timers_`
entry `(tm, a)` is a live timer at `a` with that expiration whose id is in
`activeTimers_`, every `activeTimers_` entry `(a, sq)` is a live timer at `a`
with that sequence whose `(expiration, a)` entry is in `timers_`; both
indexes hold each address at most once; all indexed addresses were
allocated. -/
def Inv (s : TQState) : Prop :=
  (∀ e ∈ s.timers, ∃ t, s.store e.2 = some t ∧ e.1 = t.expiration ∧
    (e.2, t.seq) ∈ s.activeTimers) ∧
  (∀ p ∈ s.activeTimers, ∃ t, s.store p.1 = some t ∧ p.2 = t.seq ∧
    (t.expiration, p.1) ∈ s.timers) ∧
  (s.timers.map Prod.snd).Nodup ∧
  (s.activeTimers.map Prod.fst).Nodup ∧
  (∀ e ∈ s.timers, e.2 < s.nextAddr) ∧
  (∀ p ∈ s.activeTimers, p.1 < s.nextAddr)

/-- What `getExpired` guarantees about its returned batch: distinct
addresses, all still allocated, none indexed any more, all allocated
earlier. -/
def ExpOK (s : TQState) (expired : List (Int × Nat)) : Prop :=
  (expired.map Prod.snd).Nodup ∧
  ∀ e ∈ expired, (s.store e.2).isSome ∧ e.2 ∉ s.timers.map Prod.snd ∧
    e.2 ∉ s.activeTimers.map Prod.fst ∧ e.2 < s.nextAddr

theorem mem_foldl_filter {α β : Type} [DecidableEq α] (key : β → α) :
    ∀ (l : List β) (init : List α) (p : α),
    (p ∈ l.foldl (fun act e => act.filter (fun q => q ≠ key e)) init ↔
      (p ∈ init ∧ ∀ e ∈ l, p ≠ key e)) := by
  intro l
  induction l with
  | nil => intro init p; simp
  | cons e l ih =>
      intro init p
      rw [List.foldl_cons, ih]
      simp only [List.mem_filter, List.mem_cons, decide_eq_true_eq]
      constructor
      · rintro ⟨⟨hi, hne⟩, hall⟩
        refine ⟨hi, ?_⟩
        intro x hx
        rcases hx with rfl | hx
        · exact hne
        · exact hall x hx
      · rintro ⟨hi, hall⟩
        exact ⟨⟨hi, hall e (Or.inl rfl)⟩, fun x hx => hall x (Or.inr hx)⟩

theorem foldl_filter_sublist {α β : Type} (g : β → α → Bool) :
    ∀ (l : List β) (init : List α),
    (l.foldl (fun act e => act.filter (g e)) init).Sublist init := by
  intro l
  induction l with
  | nil => intro init; exact List.Sublist.refl init
  | cons e l ih =>
      intro init
      rw [List.foldl_cons]
      exact (ih (init.filter (g e))).trans (List.filter_sublist init)

theorem insertT_eq (s : TQState) (addr : Nat) (t : Timer)
    (hst : s.store addr = some t) :
    insertT s addr =
      { s with timers := (t.expiration, addr) :: s.timers,
               activeTimers := (addr, t.seq) :: s.activeTimers } := by
  rw [insertT, hst]

theorem inv_insertT (s : TQState) (addr : Nat) (t : Timer)
    (hst : s.store addr = some t)
    (hnt : addr ∉ s.timers.map Prod.snd)
    (hna : addr ∉ s.activeTimers.map Prod.fst)
    (hlt : addr < s.nextAddr)
    (hinv : Inv s) : Inv (insertT s addr) := by
  obtain ⟨h1, h2, h3, h4, h5, h6⟩ := hinv
  rw [insertT_eq s addr t hst]
  refine ⟨?_, ?_, ?_, ?_, ?_, ?_⟩
  · intro x hx
    rcases List.mem_cons.mp hx with rfl | hx
    · exact ⟨t, hst, rfl, List.mem_cons_self _ _⟩
    · obtain ⟨t', hst', hx1, hact⟩ := h1 x hx
      exact ⟨t', hst', hx1, List.mem_cons_of_mem _ hact⟩
  · intro p hp
    rcases List.mem_cons.mp hp with rfl | hp
    · exact ⟨t, hst, rfl, List.mem_cons_self _ _⟩
    · obtain ⟨t', hst', hp2, htm⟩ := h2 p hp
      exact ⟨t', hst', hp2, List.mem_cons_of_mem _ htm⟩
  · exact List.nodup_cons.mpr ⟨hnt, h3⟩
  · exact List.nodup_cons.mpr ⟨hna, h4⟩
  · intro x hx
    rcases List.mem_cons.mp hx with rfl | hx
    · exact hlt
    · exact h5 x hx
  · intro p hp
    rcases List.mem_cons.mp hp with rfl | hp
    · exact hlt
    · exact h6 p hp

theorem addTimer_eq (s : TQState) (e i : Int) :
    addTimer s e i =
      { s with timers := (e, s.nextAddr) :: s.timers,
               activeTimers := (s.nextAddr, s.nextSeq) :: s.activeTimers,
               store := fun a => if a = s.nextAddr
                                 then some ⟨e, i, decide (0 < i), s.nextSeq⟩
                                 else s.store a,
               nextAddr := s.nextAddr + 1,
               nextSeq := s.nextSeq + 1 } := by
  simp [addTimer, insertT]

theorem inv_addTimer (s : TQState) (e i : Int) (hinv : Inv s) :
    Inv (addTimer s e i) := by
  obtain ⟨h1, h2, h3, h4, h5, h6⟩ := hinv
  rw [addTimer_eq]
  have hfresh_t : s.nextAddr ∉ s.timers.map Prod.snd := by
    intro hmem
    obtain ⟨x, hx, hx2⟩ := List.mem_map.mp hmem
    exact absurd hx2 (Nat.ne_of_lt (h5 x hx))
  have hfresh_a : s.nextAddr ∉ s.activeTimers.map Prod.fst := by
    intro hmem
    obtain ⟨p, hp, hp1⟩ := List.mem_map.mp hmem
    exact absurd hp1 (Nat.ne_of_lt (h6 p hp))
  refine ⟨?_, ?_, ?_, ?_, ?_, ?_⟩
  · intro x hx
    rcases List.mem_cons.mp hx with rfl | hx
    · refine ⟨⟨e, i, decide (0 < i), s.nextSeq⟩, ?_, rfl, List.mem_cons_self _ _⟩
      simp
    · obtain ⟨t', hst', hx1, hact⟩ := h1 x hx
      refine ⟨t', ?_, hx1, List.mem_cons_of_mem _ hact⟩
      have hne : x.2 ≠ s.nextAddr := Nat.ne_of_lt (h5 x hx)
      simp [hne, hst']
  · intro p hp
    rcases List.mem_cons.mp hp with rfl | hp
    · refine ⟨⟨e, i, decide (0 < i), s.nextSeq⟩, ?_, rfl, List.mem_cons_self _ _⟩
      simp
    · obtain ⟨t', hst', hp2, htm⟩ := h2 p hp
      refine ⟨t', ?_, hp2, List.mem_cons_of_mem _ htm⟩
      have hne : p.1 ≠ s.nextAddr := Nat.ne_of_lt (h6 p hp)
      simp [hne, hst']
  · exact List.nodup_cons.mpr ⟨hfresh_t, h3⟩
  · exact List.nodup_cons.mpr ⟨hfresh_a, h4⟩
  · intro x hx
    rcases List.mem_cons.mp hx with rfl | hx
    · exact Nat.lt_succ_self _
    · exact Nat.lt_succ_of_lt (h5 x hx)
  · intro p hp
    rcases List.mem_cons.mp hp with rfl | hp
    · exact Nat.lt_succ_self _
    · exact Nat.lt_succ_of_lt (h6 p hp)

theorem nodup_map_inj {α β : Type} (f : α → β) :
    ∀ (l : List α), (l.map f).Nodup → ∀ x ∈ l, ∀ y ∈ l, f x = f y → x = y := by
  intro l
  induction l with
  | nil =>
      intro _ x hx
      exact absurd hx (List.not_mem_nil x)
  | cons a l ih =>
      intro hnd x hx y hy hf
      have hnd' := List.nodup_cons.mp hnd
      rcases List.mem_cons.mp hx with hxa | hxl
      · rcases List.mem_cons.mp hy with hya | hyl
        · rw [hxa, hya]
        · rw [hxa] at hf
          exact absurd (hf.symm ▸ List.mem_map_of_mem f hyl) hnd'.1
      · rcases List.mem_cons.mp hy with hya | hyl
        · rw [hya] at hf
          exact absurd (hf ▸ List.mem_map_of_mem f hxl) hnd'.1
        · exact ih hnd'.2 x hxl y hyl hf

theorem inv_cancel (s : TQState) (addr : Nat) (sq : Int) (hinv : Inv s) :
    Inv (cancel s addr sq) := by
  obtain ⟨h1, h2, h3, h4, h5, h6⟩ := hinv
  by_cases hmem : (addr, sq) ∈ s.activeTimers
  · obtain ⟨t, hst, hsq, htm⟩ := h2 (addr, sq) hmem
    simp only [cancel, hst]
    rw [if_pos hmem]
    refine ⟨?_, ?_, ?_, ?_, ?_, ?_⟩
    · intro x hx
      obtain ⟨hx, hxd⟩ := List.mem_filter.mp hx
      have hxne : x ≠ (t.expiration, addr) := of_decide_eq_true hxd
      obtain ⟨t', hst', hx1, hact⟩ := h1 x hx
      have hxa : x.2 ≠ addr := by
        intro he
        exact hxne (nodup_map_inj Prod.snd s.timers h3 x hx (t.expiration, addr) htm
          (by rw [he]))
      refine ⟨t', by simp [hxa, hst'], hx1, ?_⟩
      refine List.mem_filter.mpr ⟨hact, decide_eq_true ?_⟩
      intro he
      exact hxa (congrArg Prod.fst he)
    · intro p hp
      obtain ⟨hp, hpd⟩ := List.mem_filter.mp hp
      have hpne : p ≠ (addr, sq) := of_decide_eq_true hpd
      obtain ⟨t', hst', hp2, htm'⟩ := h2 p hp
      have hpa : p.1 ≠ addr := by
        intro he
        exact hpne (nodup_map_inj Prod.fst s.activeTimers h4 p hp (addr, sq) hmem
          (by rw [he]))
      refine ⟨t', by simp [hpa, hst'], hp2, ?_⟩
      refine List.mem_filter.mpr ⟨htm', decide_eq_true ?_⟩
      intro he
      exact hpa (congrArg Prod.snd he)
    · exact List.Nodup.sublist ((List.filter_sublist s.timers).map Prod.snd) h3
    · exact List.Nodup.sublist ((List.filter_sublist s.activeTimers).map Prod.fst) h4
    · intro x hx
      exact h5 x (List.mem_filter.mp hx).1
    · intro p hp
      exact h6 p (List.mem_filter.mp hp).1
  · simp only [cancel]
    rw [if_neg hmem]
    by_cases hcall : s.callingExpiredTimers = true
    · rw [if_pos hcall]
      exact ⟨h1, h2, h3, h4, h5, h6⟩
    · rw [if_neg hcall]
      exact ⟨h1, h2, h3, h4, h5, h6⟩

theorem getExpired_inv (s : TQState) (now : Int) (hinv : Inv s) :
    Inv (getExpired s now).2 ∧ ExpOK (getExpired s now).2 (getExpired s now).1 := by
  obtain ⟨h1, h2, h3, h4, h5, h6⟩ := hinv
  simp only [getExpired]
  refine ⟨⟨?_, ?_, ?_, ?_, ?_, ?_⟩, ?_, ?_⟩
  · intro x hx
    have hx' := List.mem_filter.mp hx
    have hxNle : ¬ x.1 ≤ now := by
      have hb := hx'.2
      simp only [Bool.not_eq_true', decide_eq_false_iff_not] at hb
      exact hb
    obtain ⟨t, hst, hx1, hact⟩ := h1 x hx'.1
    refine ⟨t, hst, hx1, ?_⟩
    refine (mem_foldl_filter _ _ _ _).mpr ⟨hact, ?_⟩
    intro e heE hkey
    have heT := (List.mem_filter.mp heE).1
    have heLe : e.1 ≤ now := of_decide_eq_true (List.mem_filter.mp heE).2
    have hxe : x.2 = e.2 := congrArg Prod.fst hkey
    have hxeq : x = e := nodup_map_inj Prod.snd s.timers h3 x hx'.1 e heT hxe
    have hxle : x.1 ≤ now := by rw [hxeq]; exact heLe
    exact hxNle hxle
  · intro p hp
    have hp' := (mem_foldl_filter _ _ _ _).mp hp
    obtain ⟨t, hst, hp2, htm⟩ := h2 p hp'.1
    refine ⟨t, hst, hp2, ?_⟩
    refine List.mem_filter.mpr ⟨htm, ?_⟩
    simp only [Bool.not_eq_true', decide_eq_false_iff_not]
    intro hle
    have heE : (t.expiration, p.1) ∈ s.timers.filter (fun e => decide (e.1 ≤ now)) :=
      List.mem_filter.mpr ⟨htm, decide_eq_true hle⟩
    refine hp'.2 (t.expiration, p.1) heE ?_
    show p = (p.1, match s.store p.1 with | some u => u.seq | none => 0)
    rw [hst]
    show p = (p.1, t.seq)
    rw [← hp2]
  · exact List.Nodup.sublist ((List.filter_sublist s.timers).map Prod.snd) h3
  · exact List.Nodup.sublist ((foldl_filter_sublist _ _ s.activeTimers).map Prod.fst) h4
  · intro x hx
    exact h5 x (List.mem_filter.mp hx).1
  · intro p hp
    exact h6 p ((mem_foldl_filter _ _ _ _).mp hp).1
  · exact List.Nodup.sublist ((List.filter_sublist s.timers).map Prod.snd) h3
  · intro e heE
    have heT := (List.mem_filter.mp heE).1
    have heLe : e.1 ≤ now := of_decide_eq_true (List.mem_filter.mp heE).2
    obtain ⟨t, hst, he1, hact⟩ := h1 e heT
    refine ⟨by simp [hst], ?_, ?_, h5 e heT⟩
    · intro hmem
      obtain ⟨x, hxR, hx2⟩ := List.mem_map.mp hmem
      have hxT := (List.mem_filter.mp hxR).1
      have hxNle : ¬ x.1 ≤ now := by
        have hb := (List.mem_filter.mp hxR).2
        simp only [Bool.not_eq_true', decide_eq_false_iff_not] at hb
        exact hb
      have hxeq : x = e := nodup_map_inj Prod.snd s.timers h3 x hxT e heT hx2
      rw [hxeq] at hxNle
      exact hxNle heLe
    · intro hmem
      obtain ⟨p, hpA, hp1⟩ := List.mem_map.mp hmem
      have hp' := (mem_foldl_filter _ _ _ _).mp hpA
      obtain ⟨t', hst', hp2, htm'⟩ := h2 p hp'.1
      refine hp'.2 e heE ?_
      rw [hp1] at hst'
      show p = (e.2, match s.store e.2 with | some u => u.seq | none => 0)
      rw [hst', ← hp1]
      show p = (p.1, t'.seq)
      rw [← hp2]

theorem expok_addTimer (s : TQState) (E : List (Int × Nat)) (e i : Int)
    (hE : ExpOK s E) : ExpOK (addTimer s e i) E := by
  obtain ⟨hnd, hall⟩ := hE
  rw [addTimer_eq]
  refine ⟨hnd, ?_⟩
  intro x hx
  obtain ⟨hsome, hnt, hna, hlt⟩ := hall x hx
  have hne : x.2 ≠ s.nextAddr := Nat.ne_of_lt hlt
  refine ⟨by simpa [hne] using hsome, ?_, ?_, Nat.lt_succ_of_lt hlt⟩
  · intro hm
    rcases List.mem_cons.mp hm with h | h
    · exact hne h
    · exact hnt h
  · intro hm
    rcases List.mem_cons.mp hm with h | h
    · exact hne h
    · exact hna h

theorem expok_cancel (s : TQState) (E : List (Int × Nat)) (a : Nat) (q : Int)
    (hE : ExpOK s E) : ExpOK (cancel s a q) E := by
  obtain ⟨hnd, hall⟩ := hE
  by_cases hmem : (a, q) ∈ s.activeTimers
  · simp only [cancel]
    rw [if_pos hmem]
    refine ⟨hnd, ?_⟩
    intro x hx
    obtain ⟨hsome, hnt, hna, hlt⟩ := hall x hx
    have hxa : x.2 ≠ a := by
      intro he
      exact hna (he ▸ List.mem_map_of_mem Prod.fst hmem)
    refine ⟨by simpa [hxa] using hsome, ?_, ?_, hlt⟩
    · intro hm
      exact hnt (((List.filter_sublist s.timers).map Prod.snd).subset hm)
    · intro hm
      exact hna (((List.filter_sublist s.activeTimers).map Prod.fst).subset hm)
  · simp only [cancel]
    rw [if_neg hmem]
    by_cases hcall : s.callingExpiredTimers = true
    · rw [if_pos hcall]
      exact ⟨hnd, hall⟩
    · rw [if_neg hcall]
      exact ⟨hnd, hall⟩

theorem runCbs_pres : ∀ (ops : List CbOp) (s : TQState) (E : List (Int × Nat)),
    Inv s → ExpOK s E → Inv (runCbs s ops) ∧ ExpOK (runCbs s ops) E := by
  intro ops
  induction ops with
  | nil =>
      intro s E hi hE
      exact ⟨hi, hE⟩
  | cons op ops ih =>
      intro s E hi hE
      cases op with
      | addT e i =>
          rw [runCbs]
          exact ih (addTimer s e i) E (inv_addTimer s e i hi) (expok_addTimer s E e i hE)
      | cancelT a q =>
          rw [runCbs]
          exact ih (cancel s a q) E (inv_cancel s a q hi) (expok_cancel s E a q hE)

theorem inv_reset (now : Int) : ∀ (E : List (Int × Nat)) (s : TQState),
    Inv s → ExpOK s E → Inv (reset s E now) := by
  intro E
  induction E with
  | nil =>
      intro s hi _
      exact hi
  | cons e E ih =>
      intro s hi hE
      obtain ⟨hnd, hall⟩ := hE
      obtain ⟨hsome, hnt, hna, hlt⟩ := hall e (List.mem_cons_self _ _)
      obtain ⟨t, hst⟩ := Option.isSome_iff_exists.mp hsome
      have hndE : e.2 ∉ E.map Prod.snd ∧ (E.map Prod.snd).Nodup := List.nodup_cons.mp hnd
      by_cases hcond : t.repeat_ = true ∧ (e.2, t.seq) ∉ s.cancelingTimers
      · have hbody : reset s (e :: E) now =
            reset (insertT
              { s with store := fun a => if a = e.2 then some (t.restart now)
                                         else s.store a }
              e.2) E now := by
          rw [reset, reset, List.foldl_cons]
          simp only [hst]
          rw [if_pos hcond]
        rw [hbody]
        have hinv' : Inv { s with store := fun a => if a = e.2 then some (t.restart now)
                                                    else s.store a } := by
          obtain ⟨h1, h2, h3, h4, h5, h6⟩ := hi
          refine ⟨?_, ?_, h3, h4, h5, h6⟩
          · intro x hx
            obtain ⟨t', hst'', hx1, hact⟩ := h1 x hx
            have hne : x.2 ≠ e.2 := by
              intro he
              exact hnt (he ▸ List.mem_map_of_mem Prod.snd hx)
            exact ⟨t', by simp [hne, hst''], hx1, hact⟩
          · intro p hp
            obtain ⟨t', hst'', hp2, htm⟩ := h2 p hp
            have hne : p.1 ≠ e.2 := by
              intro he
              exact hna (he ▸ List.mem_map_of_mem Prod.fst hp)
            exact ⟨t', by simp [hne, hst''], hp2, htm⟩
        have hinv₁ := inv_insertT
          { s with store := fun a => if a = e.2 then some (t.restart now)
                                     else s.store a }
          e.2 (t.restart now) (by simp) hnt hna hlt hinv'
        have hexp₁ : ExpOK (insertT
            { s with store := fun a => if a = e.2 then some (t.restart now)
                                       else s.store a } e.2) E := by
          rw [insertT_eq _ e.2 (t.restart now) (by simp)]
          refine ⟨hndE.2, ?_⟩
          intro x hxE
          obtain ⟨hsx, hntx, hnax, hltx⟩ := hall x (List.mem_cons_of_mem _ hxE)
          have hxe : x.2 ≠ e.2 := by
            intro he
            exact hndE.1 (he ▸ List.mem_map_of_mem Prod.snd hxE)
          refine ⟨by simpa [hxe] using hsx, ?_, ?_, hltx⟩
          · intro hm
            rcases List.mem_cons.mp hm with h | h
            · exact hxe h
            · exact hntx h
          · intro hm
            rcases List.mem_cons.mp hm with h | h
            · exact hxe h
            · exact hnax h
        exact ih _ hinv₁ hexp₁
      · have hbody : reset s (e :: E) now =
            reset { s with store := fun a => if a = e.2 then none else s.store a }
              E now := by
          rw [reset, reset, List.foldl_cons]
          simp only [hst]
          rw [if_neg hcond]
        rw [hbody]
        have hinv' : Inv { s with store := fun a => if a = e.2 then none
                                                    else s.store a } := by
          obtain ⟨h1, h2, h3, h4, h5, h6⟩ := hi
          refine ⟨?_, ?_, h3, h4, h5, h6⟩
          · intro x hx
            obtain ⟨t', hst'', hx1, hact⟩ := h1 x hx
            have hne : x.2 ≠ e.2 := by
              intro he
              exact hnt (he ▸ List.mem_map_of_mem Prod.snd hx)
            exact ⟨t', by simp [hne, hst''], hx1, hact⟩
          · intro p hp
            obtain ⟨t', hst'', hp2, htm⟩ := h2 p hp
            have hne : p.1 ≠ e.2 := by
              intro he
              exact hna (he ▸ List.mem_map_of_mem Prod.fst hp)
            exact ⟨t', by simp [hne, hst''], hp2, htm⟩
        have hexp' : ExpOK { s with store := fun a => if a = e.2 then none
                                                      else s.store a } E := by
          refine ⟨hndE.2, ?_⟩
          intro x hxE
          obtain ⟨hsx, hntx, hnax, hltx⟩ := hall x (List.mem_cons_of_mem _ hxE)
          have hxe : x.2 ≠ e.2 := by
            intro he
            exact hndE.1 (he ▸ List.mem_map_of_mem Prod.snd hxE)
          exact ⟨by simpa [hxe] using hsx, hntx, hnax, hltx⟩
        exact ih _ hinv' hexp'

theorem inv_init : Inv TQState.init := by
  refine ⟨?_, ?_, List.nodup_nil, List.nodup_nil, ?_, ?_⟩
  · intro e he
    exact absurd he (List.not_mem_nil e)
  · intro p hp
    exact absurd hp (List.not_mem_nil p)
  · intro e he
    exact absurd he (List.not_mem_nil e)
  · intro p hp
    exact absurd hp (List.not_mem_nil p)

theorem reach_inv (s : TQState) (hs : Reach s) : Inv s := by
  induction hs with
  | init => exact inv_init
  | add s e i _ ih => exact inv_addTimer s e i ih
  | cxl s a q _ ih => exact inv_cancel s a q ih
  | tick s now cbs _ ih =>
      obtain ⟨hinv2, hexp2⟩ := getExpired_inv s now ih
      have hrun := runCbs_pres cbs { (getExpired s now).2 with callingExpiredTimers := true, cancelingTimers := [] } (getExpired s now).1 hinv2 hexp2
      show Inv (reset { runCbs { (getExpired s now).2 with callingExpiredTimers := true, cancelingTimers := [] } cbs with callingExpiredTimers := false } (getExpired s now).1 now)
      exact inv_reset now (getExpired s now).1 { runCbs { (getExpired s now).2 with callingExpiredTimers := true, cancelingTimers := [] } cbs with callingExpiredTimers := false } hrun.1 hrun.2

/-- A demo run: add a one-shot timer (expires at 5) and a repeating timer
(expires at 10, interval 7), cancel the first, then dispatch at time 12 while
a callback adds a third timer; the repeating timer is restarted to 19. -/
def demoTQ : TQState :=
  handleChannelRead (cancel (addTimer (addTimer TQState.init 5 0) 10 7) 0 0) 12
    [CbOp.addT 20 0]

end TimerQueue

/-- C8: in every reachable `TimerQueue` state — under any interleaving of
`addTimer`, `cancel` (inside or outside expired-timer dispatch) and
`handleChannelRead` dispatches — the primary index `timers_` and the
secondary index `activeTimers_` hold exactly the same set of live timers: an
address is in one iff it is in the other. -/
theorem c8_timers_activeTimers_same_set (s : TimerQueue.TQState)
    (hs : TimerQueue.Reach s) :
    ∀ a : Nat, (∃ tm, (tm, a) ∈ s.timers) ↔ (∃ sq, (a, sq) ∈ s.activeTimers) := by
  have hinv := TimerQueue.reach_inv s hs
  intro a
  constructor
  · rintro ⟨tm, htm⟩
    obtain ⟨t, _, _, hact⟩ := hinv.1 (tm, a) htm
    exact ⟨t.seq, hact⟩
  · rintro ⟨sq, hsq⟩
    obtain ⟨t, _, _, htm⟩ := hinv.2.1 (a, sq) hsq
    exact ⟨t.expiration, htm⟩

/-- C8 witness: the demo state is reachable, its two indexes evaluate to
`[(19, 1), (20, 2)]` and `[(1, 1), (2, 2)]`, and the theorem's biconditional
holds there for address 1. -/
theorem c8_timers_activeTimers_same_set_witness :
    ((∃ tm, (tm, 1) ∈ TimerQueue.demoTQ.timers) ↔
      (∃ sq, ((1 : Nat), sq) ∈ TimerQueue.demoTQ.activeTimers)) ∧
    TimerQueue.demoTQ.timers = [(19, 1), (20, 2)] ∧
    TimerQueue.demoTQ.activeTimers = [(1, 1), (2, 2)] := by
  refine ⟨c8_timers_activeTimers_same_set TimerQueue.demoTQ ?_ 1, rfl, rfl⟩
  exact TimerQueue.Reach.tick _ 12 [TimerQueue.CbOp.addT 20 0]
    (TimerQueue.Reach.cxl _ 0 0
      (TimerQueue.Reach.add _ 10 7 (TimerQueue.Reach.add _ 5 0 TimerQueue.Reach.init)))
